import Mathlib

/-!
Verification development for the `go-semantic-diff` repository.

The Go sources are shallowly embedded: strings are `List Char`, the pipeline's
mutable state is threaded explicitly, and machine integers are `Nat`.  Two
modelling decisions apply throughout and are noted at the definitions they
concern:

* SHA-256 checksums are modelled by the normalized text they hash: the code
  compares checksums only for equality, and two digests agree exactly when the
  normalized texts agree (spec §4.1).
* `float32` similarity scores are modelled by the exact rational value the code
  computes, kept as a `(numerator, denominator)` pair of naturals so that all
  comparisons are decidable natural-number cross multiplications.
-/

namespace GoSemDiff

/-- Whitespace class of Go's regexp `\s` (RE2): tab, newline, vertical tab is
not included by RE2's Perl class, form feed, carriage return, space. -/
def isWS (c : Char) : Bool :=
  c = ' ' || c = '\t' || c = '\n' || c = '\x0c' || c = '\r'

/-- One-character lowercasing, modelling Go `strings.ToLower` at ASCII
granularity (the only case mapping exercised by the repository's data). -/
def toLowerChar (c : Char) : Char :=
  if 65 ≤ c.toNat ∧ c.toNat ≤ 90 then Char.ofNat (c.toNat + 32) else c

/-- Worker for `collapseWS`: the Boolean records whether the previous input
character was whitespace (so the single replacement space was already
emitted). -/
def collapseAux : Bool → List Char → List Char
  | _, [] => []
  | prev, c :: cs =>
    if isWS c then
      if prev then collapseAux true cs else ' ' :: collapseAux true cs
    else c :: collapseAux false cs

/-- Go `spaceNormalizerContentBlock.ReplaceAllString(text, " ")`: every maximal
run of whitespace becomes a single space. -/
def collapseWS (l : List Char) : List Char := collapseAux false l

/-- Left half of Go `strings.TrimSpace`. -/
def trimLeft (l : List Char) : List Char := l.dropWhile isWS

/-- Right half of Go `strings.TrimSpace`. -/
def trimRight (l : List Char) : List Char := (l.reverse.dropWhile isWS).reverse

/-- Go `strings.TrimSpace`. -/
def trimWS (l : List Char) : List Char := trimRight (trimLeft l)

/-- `NormalizeTextBlock` from contentblock.go: lowercase, collapse whitespace
runs to one space, trim. -/
def NormalizeTextBlock (l : List Char) : List Char :=
  trimWS (collapseWS (l.map toLowerChar))

/-- `CalculateLineChecksum` from contentblock.go.  The SHA-256 hex digest of the
normalized line is modelled by the normalized line itself: the digest is used
only in equality tests, and per spec §4.1 two lines are checksum-equal exactly
when their normalized forms agree. -/
def CalculateLineChecksum (l : List Char) : List Char := NormalizeTextBlock l

/-- `CalculateBlockChecksum` from contentblock.go, modelled like
`CalculateLineChecksum`. -/
def CalculateBlockChecksum (l : List Char) : List Char := NormalizeTextBlock l

/-- Unit-cost Levenshtein distance with explicit fuel so that the recursion is
structural (and hence kernel-reducible).  Fuel `|xs| + |ys|` always suffices. -/
def levF : Nat → List Char → List Char → Nat
  | _, [], ys => ys.length
  | _, xs, [] => xs.length
  | 0, _, _ => 0
  | f + 1, x :: xs, y :: ys =>
    if x = y then levF f xs ys
    else 1 + min (levF f xs ys) (min (levF f (x :: xs) ys) (levF f xs (y :: ys)))

/-- `levenshtein.ComputeDistance` (the agnivade/levenshtein dependency):
standard unit-cost edit distance between the two character sequences. -/
def levenshtein (a b : List Char) : Nat := levF (a.length + b.length) a b

/-- `TextSimilarityNormalized` from similarity.go.  The `float32` result
`1 - dist/maxLen` is modelled by the exact rational it denotes, as the pair
`(maxLen - dist, maxLen)`; the two early returns are kept as in the source.
(The source's final `maxLen == 0` test is dead there and is dead here too.) -/
def TextSimilarityNormalized (a b : List Char) : Nat × Nat :=
  if a.length = 0 ∧ b.length = 0 then (1, 1)
  else if a.length = 0 ∨ b.length = 0 then (0, 1)
  else
    let dist := levenshtein a b
    let maxLen := max a.length b.length
    if maxLen = 0 then (1, 1) else (maxLen - dist, maxLen)

/-- Interpretation of a similarity pair as the rational number it denotes. -/
def simQ (p : Nat × Nat) : ℚ := (p.1 : ℚ) / (p.2 : ℚ)

/-! ### Basic lemmas about the text primitives -/

/-- The no-two-adjacent-whitespace relation used to characterize collapsed text. -/
def noWSPair (a b : Char) : Prop := ¬(isWS a = true ∧ isWS b = true)

/-! ### Data model (contentblock.go, diffengine.go)

`LineInfo.MegaBlockRefID` is omitted (never written or read by the pipeline),
as is `ContentBlock.Embedding` (the stubbed vector is never read) and
`DiffEntry.LineDiffs` (produced by the external diffmatchpatch library, purely
presentational). -/

/-- `LineInfo` from contentblock.go. -/
structure LineInfo where
  originalText : List Char
  trimmedText : List Char
  checksum : List Char
  originalLineNum : Nat
  fileOrigin : String
  isPartOfMega : Bool
deriving DecidableEq, Inhabited, Repr

/-- `ContentBlock` from contentblock.go. -/
structure ContentBlock where
  id : Nat
  originalText : List Char
  normalizedText : List Char
  checksum : List Char
  lineStart : Nat
  lineEnd : Nat
  fileOrigin : String
  sourceLineRefs : List LineInfo
deriving DecidableEq, Inhabited, Repr

/-- `DiffType` from diffengine.go, in declaration (= `iota`) order. -/
inductive DiffType where
  | added
  | deleted
  | modified
  | moved
  | unchanged
deriving DecidableEq, Inhabited, Repr

/-- Numeric value of a `DiffType` in the Go `iota` enumeration (the value the
final sort compares with `<`). -/
def DiffType.rank : DiffType → Nat
  | .added => 0
  | .deleted => 1
  | .modified => 2
  | .moved => 3
  | .unchanged => 4

/-- `DiffEntry` from diffengine.go; `Similarity` is the exact rational pair
(megablock entries keep the `float32` zero value, modelled `(0, 1)`). -/
structure DiffEntry where
  type : DiffType
  blockA : Option ContentBlock
  blockB : Option ContentBlock
  similarity : Nat × Nat
deriving DecidableEq, Inhabited, Repr

/-- `strings.ReplaceAll(content, "\r\n", "\n")`. -/
def replCRLF : List Char → List Char
  | '\r' :: '\n' :: rest => '\n' :: replCRLF rest
  | c :: rest => c :: replCRLF rest
  | [] => []

/-- The `LineInfo` built for the line `p.2` at zero-based index `p.1`. -/
def mkLineInfo (fileOrigin : String) (p : Nat × List Char) : LineInfo :=
  { originalText := p.2
    trimmedText := trimWS p.2
    checksum := CalculateLineChecksum p.2
    originalLineNum := p.1 + 1
    fileOrigin := fileOrigin
    isPartOfMega := false }

/-- `getLinesWithInfo` from diffengine.go. -/
def getLinesWithInfo (content : List Char) (fileOrigin : String) : List LineInfo :=
  ((replCRLF content).splitOn '\n').enum.map (mkLineInfo fileOrigin)

def MinMegaBlockLength : Nat := 3

def MinParagraphLinesForSemanticMatch : Nat := 3

/-! ### Stage 2: greedy megablock matching -/

/-- Length of the run of consecutive unconsumed checksum-equal line pairs at
the heads of the two suffixes (the inner `k` loop of
`findNextGreedyMegaMatch`). -/
def runLenL : List LineInfo → List LineInfo → Nat
  | a :: as, b :: bs =>
    if a.isPartOfMega = false ∧ b.isPartOfMega = false ∧ a.checksum = b.checksum then
      runLenL as bs + 1
    else 0
  | _, _ => 0

/-- Run length starting at positions `(i, j)`. -/
def runLen (A B : List LineInfo) (i j : Nat) : Nat := runLenL (A.drop i) (B.drop j)

/-- The `(i, j)` scan order of the two nested loops of
`findNextGreedyMegaMatch`. -/
def megaPairs (A B : List LineInfo) : List (Nat × Nat) :=
  (List.range A.length).flatMap fun i => (List.range B.length).map fun j => (i, j)

/-- One `(i, j)` step of the scan: strict improvement (`currentLen > bestLen`)
keeps the earliest pair attaining the final best length. -/
def megaStep (A B : List LineInfo) (st : Nat × Nat × Nat) (p : Nat × Nat) : Nat × Nat × Nat :=
  if (A.getD p.1 default).isPartOfMega then st
  else if (B.getD p.2 default).isPartOfMega then st
  else if (A.getD p.1 default).checksum = (B.getD p.2 default).checksum then
    if st.1 < runLen A B p.1 p.2 then (runLen A B p.1 p.2, p.1, p.2) else st
  else st

/-- `findNextGreedyMegaMatch` from diffengine.go: `some (aStart, bStart, len)`
exactly when the Go function reports `found = true`. -/
def findNextGreedyMegaMatch (A B : List LineInfo) : Option (Nat × Nat × Nat) :=
  let st := (megaPairs A B).foldl (megaStep A B) (0, 0, 0)
  if MinMegaBlockLength ≤ st.1 then some (st.2.1, st.2.2, st.1) else none

/-- `strings.Join(lines, "\n")`. -/
def joinLines : List (List Char) → List Char
  | [] => []
  | [t] => t
  | t :: rest => t ++ '\n' :: joinLines rest

/-- The `ContentBlock` one side of a megablock match materializes. -/
def mkMegaBlock (lines : List LineInfo) (start len ident : Nat) (origin : String) :
    ContentBlock :=
  let slice := (lines.drop start).take len
  let text := joinLines (slice.map (·.originalText))
  { id := ident
    originalText := text
    normalizedText := NormalizeTextBlock text
    checksum := CalculateBlockChecksum text
    lineStart := (lines.getD start default).originalLineNum
    lineEnd := (lines.getD (start + len - 1) default).originalLineNum
    fileOrigin := origin
    sourceLineRefs := slice }

/-- Set `IsPartOfMega` on the `len` lines starting at `start`. -/
def markConsumed (lines : List LineInfo) (start len : Nat) : List LineInfo :=
  lines.enum.map fun p =>
    if start ≤ p.1 ∧ p.1 < start + len then { p.2 with isPartOfMega := true } else p.2

/-- Stage 2 of `PerformDiff`: the greedy megablock loop.  The Go `for` loop is
modelled with fuel; every successful iteration consumes at least
`MinMegaBlockLength` previously unconsumed A lines, so `|A| + 1` fuel always
reaches the `!found` exit. -/
def megaLoop : Nat → List LineInfo → List LineInfo → List DiffEntry → Nat →
    List LineInfo × List LineInfo × List DiffEntry × Nat
  | 0, A, B, megas, ctr => (A, B, megas, ctr)
  | fuel + 1, A, B, megas, ctr =>
    match findNextGreedyMegaMatch A B with
    | none => (A, B, megas, ctr)
    | some (aS, bS, len) =>
      let cbA := mkMegaBlock A aS len ctr "A"
      let cbB := mkMegaBlock B bS len (ctr + 1) "B"
      let entry : DiffEntry :=
        { type := .unchanged, blockA := some cbA, blockB := some cbB, similarity := (0, 1) }
      megaLoop fuel (markConsumed A aS len) (markConsumed B bS len)
        (megas ++ [entry]) (ctr + 2)

/-! ### Stage 3: gap segmentation -/

/-- Index, within a maximal whitespace run, of its last `'\n'` (`none` when the
run has no newline): the greedy `\s*` of the separator regexp backtracks to the
last newline it can leave for the final `\n`. -/
def lastNL (ws : List Char) : Option Nat :=
  match ws.reverse.findIdx? (fun d => d = '\n') with
  | some m => some (ws.length - 1 - m)
  | none => none

/-- Leftmost match of the paragraph separator regexp `\n\s*\n` against `s`:
the text before the match and the text after it. -/
def findSep : List Char → Option (List Char × List Char)
  | [] => none
  | c :: rest =>
    if c = '\n' then
      match lastNL (rest.takeWhile (fun d => isWS d)) with
      | some k => some ([], rest.drop (k + 1))
      | none =>
        match findSep rest with
        | some (pre, suf) => some (c :: pre, suf)
        | none => none
    else
      match findSep rest with
      | some (pre, suf) => some (c :: pre, suf)
      | none => none

/-- Fuelled split on the separator regexp; each match consumes at least two
characters, so `|s| + 1` fuel always suffices. -/
def splitSep : Nat → List Char → List (List Char)
  | 0, s => [s]
  | fuel + 1, s =>
    match findSep s with
    | none => [s]
    | some (pre, suf) => pre :: splitSep fuel suf

/-- `paragraphSeparatorForGapsContentBlock.Split(gapContent, -1)`. -/
def splitParagraphs (s : List Char) : List (List Char) := splitSep (s.length + 1) s

/-- `strings.TrimSuffix(s, "\n")`: drop one trailing newline when present. -/
def trimOneNL (l : List Char) : List Char :=
  if l.getLast? = some '\n' then l.dropLast else l

/-- The inner reconstruction loop of `SegmentGapText`: consume lines from the
remaining gap suffix until the built text equals the split segment `para` or
reaches its length; returns the consumed lines and the remaining suffix. -/
def consumePara : List LineInfo → List Char → List Char → List LineInfo × List LineInfo
  | [], _, _ => ([], [])
  | li :: rest, built, para =>
    let b := built ++ li.originalText
    if b = para then ([li], rest)
    else if para.length ≤ b.length then ([li], rest)
    else
      let r := consumePara rest (b ++ ['\n']) para
      (li :: r.1, r.2)

/-- One split segment of `SegmentGapText`'s main loop: consume lines, then emit
a block unless the trimmed segment (or the consumed-line list) is empty. -/
def segStep (origin : String) (st : List LineInfo × List ContentBlock × Nat)
    (para : List Char) : List LineInfo × List ContentBlock × Nat :=
  let consumed := consumePara st.1 [] para
  let trimmedPara := trimWS para
  if trimmedPara = [] then (consumed.2, st.2.1, st.2.2)
  else if consumed.1 = [] then (consumed.2, st.2.1, st.2.2)
  else
    let block : ContentBlock :=
      { id := st.2.2
        originalText := trimmedPara
        normalizedText := NormalizeTextBlock trimmedPara
        checksum := CalculateBlockChecksum trimmedPara
        lineStart := consumed.1.headI.originalLineNum
        lineEnd := (consumed.1.getLast?.getD default).originalLineNum
        fileOrigin := origin
        sourceLineRefs := consumed.1 }
    (consumed.2, st.2.1 ++ [block], st.2.2 + 1)

/-- `SegmentGapText` from contentblock.go. -/
def SegmentGapText (gapLines : List LineInfo) (fileOrigin : String) (startBlockID : Nat) :
    List ContentBlock × Nat :=
  if gapLines = [] then ([], startBlockID)
  else
    let build := gapLines.foldl (fun acc li => acc ++ li.originalText ++ ['\n']) []
    let gapContent := trimOneNL build
    let res := (splitParagraphs gapContent).foldl (segStep fileOrigin)
      (gapLines, [], startBlockID)
    (res.2.1, res.2.2)

/-- One line of the stage-3 gap walk: state is (pending unconsumed lines,
emitted blocks, ID counter). -/
def gapStep (origin : String) (st : List LineInfo × List ContentBlock × Nat)
    (li : LineInfo) : List LineInfo × List ContentBlock × Nat :=
  if li.isPartOfMega = false then (st.1 ++ [li], st.2.1, st.2.2)
  else if st.1 = [] then ([], st.2.1, st.2.2)
  else
    let seg := SegmentGapText st.1 origin st.2.2
    ([], st.2.1 ++ seg.1, seg.2)

/-- Stage 3 of `PerformDiff` for one file: segment the maximal runs of
unconsumed lines into paragraph blocks. -/
def collectGaps (lines : List LineInfo) (origin : String) (ctr : Nat) :
    List ContentBlock × Nat :=
  let st := lines.foldl (gapStep origin) ([], [], ctr)
  if st.1 = [] then (st.2.1, st.2.2)
  else
    let seg := SegmentGapText st.1 origin st.2.2
    (st.2.1 ++ seg.1, seg.2)

/-! ### Stage 4: greedy semantic pairing of gap paragraphs -/

/-- `strings.Count(text, "\n") + 1`. -/
def numLines (t : List Char) : Nat := t.count '\n' + 1

/-- Inner candidate scan of stage 4: the best not-yet-paired, long-enough B gap
block by similarity.  `none` models the initial `highestSimilarity = -1`
(every real similarity is ≥ 0 > -1, so the first candidate always replaces it);
strict improvement keeps the earliest candidate on ties. -/
def bestStep (aNorm : List Char) (processedB : List Nat)
    (st : Option (ContentBlock × (Nat × Nat))) (b : ContentBlock) :
    Option (ContentBlock × (Nat × Nat)) :=
  if b.id ∈ processedB then st
  else if numLines b.originalText < MinParagraphLinesForSemanticMatch then st
  else
    let sim := TextSimilarityNormalized aNorm b.normalizedText
    match st with
    | none => some (b, sim)
    | some (bb, hi) =>
      if hi.1 * sim.2 < sim.1 * hi.2 then some (b, sim) else some (bb, hi)

/-- One A-block step of the stage-4 loop; state is
(processed A IDs, processed B IDs, matches), threshold is `tNum / tDen`. -/
def semStep (tNum tDen : Nat) (gapB : List ContentBlock)
    (st : List Nat × List Nat × List DiffEntry) (a : ContentBlock) :
    List Nat × List Nat × List DiffEntry :=
  if numLines a.originalText < MinParagraphLinesForSemanticMatch then st
  else
    match gapB.foldl (bestStep a.normalizedText st.2.1) none with
    | none => st
    | some (b, hi) =>
      if tNum * hi.2 ≤ hi.1 * tDen then
        (st.1 ++ [a.id], st.2.1 ++ [b.id], st.2.2 ++
          [{ type := .modified, blockA := some a, blockB := some b, similarity := hi }])
      else st

/-! ### Stage 5: LIS positional classification -/

/-- `sort.Search(len(tails), func(k) { tails[k] >= bLine })`: on the sorted
tails array this is the first index whose value is ≥ `bLine`
(`tails.length` when none is). -/
def searchGE (tails : List Nat) (bLine : Nat) : Nat :=
  tails.findIdx (fun t => bLine ≤ t)

/-- One element of the patience loop in `findLISIndices`; state is
`(tails, tailOriginalIndices, predecessorMatchIndices)` with Go's `-1`
modelled as `none`, the element is `(i, bLine)`. -/
def lisStep (st : List Nat × List Nat × List (Option Nat)) (p : Nat × Nat) :
    List Nat × List Nat × List (Option Nat) :=
  (if searchGE st.1 p.2 = st.1.length then st.1 ++ [p.2]
    else st.1.set (searchGE st.1 p.2) p.2,
   if searchGE st.1 p.2 = st.1.length then st.2.1 ++ [p.1]
    else st.2.1.set (searchGE st.1 p.2) p.1,
   if 0 < searchGE st.1 p.2 then
     st.2.2.set p.1 (some ((if searchGE st.1 p.2 = st.1.length then st.2.1 ++ [p.1]
       else st.2.1.set (searchGE st.1 p.2) p.1).getD (searchGE st.1 p.2 - 1) 0))
   else st.2.2)

/-- The reconstruction walk of `findLISIndices`, including its defensive early
exit that leaves zero-initialized entries. -/
def lisRecon (preds : List (Option Nat)) : Nat → Nat → List Nat
  | 0, cur => [cur]
  | k + 1, cur =>
    match preds.getD cur none with
    | none => List.replicate (k + 1) 0 ++ [cur]
    | some p => lisRecon preds k p ++ [cur]

/-- `findLISIndices` from diffengine.go (the mid-loop early return on a missing
B block is modelled by the up-front `all` test, with the same result). -/
def findLISIndices (pairedMatches : List DiffEntry) : List Nat :=
  if pairedMatches.length = 0 then []
  else if pairedMatches.all (fun e => e.blockB.isSome) = false then []
  else
    let bLineStarts := pairedMatches.map fun e => (e.blockB.map (fun b => b.lineStart)).getD 0
    let st := bLineStarts.enum.foldl lisStep ([], [], List.replicate pairedMatches.length none)
    if st.1.length = 0 then []
    else lisRecon st.2.2 (st.1.length - 1) (st.2.1.getD (st.1.length - 1) 0)

/-! ### Sort relations -/

/-- Relation sorting A gap blocks by ID before stage 4. -/
def leID (x y : ContentBlock) : Prop := x.id ≤ y.id

instance : DecidableRel leID := fun x y => by unfold leID; infer_instance

instance : IsTotal ContentBlock leID := ⟨by intro a b; unfold leID; omega⟩

instance : IsTrans ContentBlock leID := ⟨by intro a b c; unfold leID; omega⟩

/-- Stage-5 sort key (`BlockA.LineStart`, tie-break `BlockA.ID`); every paired
match carries an A block, so the `none` default is never realized on the
pipeline's inputs. -/
def aKey (e : DiffEntry) : Nat × Nat :=
  match e.blockA with
  | some a => (a.lineStart, a.id)
  | none => (0, 0)

/-- Reflexive closure of the stage-5 `sort.Slice` comparator. -/
def leA (x y : DiffEntry) : Prop :=
  (aKey x).1 < (aKey y).1 ∨ ((aKey x).1 = (aKey y).1 ∧ (aKey x).2 ≤ (aKey y).2)

instance : DecidableRel leA := fun x y => by unfold leA; infer_instance

instance : IsTotal DiffEntry leA := ⟨by intro a b; unfold leA; omega⟩

instance : IsTrans DiffEntry leA := ⟨by intro a b c; unfold leA; omega⟩

/-- Stage-7 sort key: category rank, then A-entries before B-only entries,
then (line start, ID) of the block that is present. -/
def key7 (e : DiffEntry) : Nat × Nat × Nat × Nat :=
  match e.blockA with
  | some a => (e.type.rank, 0, a.lineStart, a.id)
  | none =>
    match e.blockB with
    | some b => (e.type.rank, 1, b.lineStart, b.id)
    | none => (e.type.rank, 1, 0, 0)

/-- Reflexive closure of the stage-7 `sort.Slice` comparator (lexicographic on
`key7`). -/
def le7 (x y : DiffEntry) : Prop :=
  (key7 x).1 < (key7 y).1 ∨ ((key7 x).1 = (key7 y).1 ∧
    ((key7 x).2.1 < (key7 y).2.1 ∨ ((key7 x).2.1 = (key7 y).2.1 ∧
      ((key7 x).2.2.1 < (key7 y).2.2.1 ∨ ((key7 x).2.2.1 = (key7 y).2.2.1 ∧
        (key7 x).2.2.2 ≤ (key7 y).2.2.2)))))

instance : DecidableRel le7 := fun x y => by unfold le7; infer_instance

instance : IsTotal DiffEntry le7 := ⟨by intro a b; unfold le7; omega⟩

instance : IsTrans DiffEntry le7 := ⟨by intro a b c; unfold le7; omega⟩

/-! ### PerformDiff -/

/-- Stage 4 of `PerformDiff`: sort A gap blocks by ID, then run the greedy
semantic pairing loop; returns (processed A IDs, processed B IDs, matches). -/
def semStage (tNum tDen : Nat) (gapBlocksA gapBlocksB : List ContentBlock) :
    List Nat × List Nat × List DiffEntry :=
  (List.insertionSort leID gapBlocksA).foldl (semStep tNum tDen gapBlocksB) ([], [], [])

/-- Stage 5 of `PerformDiff`: sort the paired matches by A start line (tie by A
ID), compute the LIS of B start lines, keep LIS members and relabel the rest
as Moved. -/
def lisStage (pairs : List DiffEntry) : List DiffEntry :=
  (List.insertionSort leA pairs).enum.map fun p =>
    if p.1 ∈ findLISIndices (List.insertionSort leA pairs) then p.2
    else { p.2 with type := DiffType.moved }

/-- Stage 6 of `PerformDiff`, A side: a Deleted entry for every gap block not
semantically paired. -/
def mkDeleted (gapBlocksA : List ContentBlock) (processedA : List Nat) : List DiffEntry :=
  (gapBlocksA.filter fun blk => blk.id ∉ processedA).map fun blk =>
    { type := DiffType.deleted, blockA := some blk, blockB := none, similarity := (0, 1) }

/-- Stage 6 of `PerformDiff`, B side: an Added entry for every gap block not
semantically paired. -/
def mkAdded (gapBlocksB : List ContentBlock) (processedB : List Nat) : List DiffEntry :=
  (gapBlocksB.filter fun blk => blk.id ∉ processedB).map fun blk =>
    { type := DiffType.added, blockA := none, blockB := some blk, similarity := (0, 1) }

/-- `PerformDiff` from diffengine.go, with the global `SimilarityThreshold`
supplied as the rational `tNum / tDen` (Go default 0.55 = 11/20).  Go's
unstable `sort.Slice` calls are modelled by insertion sort on the reflexive
closures of their comparators. -/
def PerformDiff (tNum tDen : Nat) (rawContentA rawContentB : List Char) : List DiffEntry :=
  let allLinesA := getLinesWithInfo rawContentA "A"
  let allLinesB := getLinesWithInfo rawContentB "B"
  let mega := megaLoop (allLinesA.length + 1) allLinesA allLinesB [] 0
  let gapA := collectGaps mega.1 "A" mega.2.2.2
  let gapB := collectGaps mega.2.1 "B" gapA.2
  let sem := semStage tNum tDen gapA.1 gapB.1
  List.insertionSort le7
    (lisStage (mega.2.2.1 ++ sem.2.2) ++ mkDeleted gapA.1 sem.1 ++ mkAdded gapB.1 sem.2.1)

/-! ### C3: output ordering -/

/-- Modelled from the spec's words for C3 only: the category order the claim
asserts, namely Added, Deleted, Moved, Modified, Unchanged. -/
def specRankC3 : DiffType → Nat
  | .added => 0
  | .deleted => 1
  | .moved => 2
  | .modified => 3
  | .unchanged => 4

/-! ### C4: gap block line ranges -/

/-- A gap line whose text is `"a"`, at original line 1. -/
def c4line1 : LineInfo :=
  { originalText := "a".data
    trimmedText := trimWS "a".data
    checksum := CalculateLineChecksum "a".data
    originalLineNum := 1
    fileOrigin := "A"
    isPartOfMega := false }

/-- A gap line whose text is empty, at original line 2. -/
def c4line2 : LineInfo :=
  { originalText := []
    trimmedText := []
    checksum := CalculateLineChecksum []
    originalLineNum := 2
    fileOrigin := "A"
    isPartOfMega := false }

/-- Range property every block emitted by `segStep` has by construction. -/
def blockRangeOK (blk : ContentBlock) : Prop :=
  blk.sourceLineRefs ≠ [] ∧
    blk.lineStart = blk.sourceLineRefs.headI.originalLineNum ∧
    blk.lineEnd = (blk.sourceLineRefs.getLast?.getD default).originalLineNum

/-- The concrete block of the C4 scenario. -/
def c4blk : ContentBlock := (SegmentGapText [c4line1, c4line2] "A" 0).1.headI

/-- Strict lexicographic order on index pairs: the scan order of
`findNextGreedyMegaMatch`'s nested loops. -/
def pairLexLt (p q : Nat × Nat) : Prop := p.1 < q.1 ∨ (p.1 = q.1 ∧ p.2 < q.2)

/-- A predecessor chain of length `d` below index `i` with strictly increasing
B-start values: the invariant the patience loop of `findLISIndices` maintains
and its reconstruction walk consumes. -/
def goodChain (preds : List (Option Nat)) (bs : List Nat) : Nat → Nat → Prop
  | _, 0 => True
  | i, d + 1 => ∃ p, preds.getD i none = some p ∧ p < i ∧
      bs.getD p 0 < bs.getD i 0 ∧ goodChain preds bs p d

/-- No content block, identified by its ID, is shared between the two entries
whenever both are paired (carry both an A block and a B block). -/
def pairedDisjoint (e1 e2 : DiffEntry) : Prop :=
  ∀ a1 b1 a2 b2 : ContentBlock,
    e1.blockA = some a1 → e1.blockB = some b1 →
    e2.blockA = some a2 → e2.blockB = some b2 →
    a1.id ≠ a2.id ∧ b1.id ≠ b2.id

/-- The Modified entry of the C1 scenario. -/
def c1ex : DiffEntry :=
  (PerformDiff 11 20 ("1\n2\n3\n\na\nb\nc".data) ("a\nb\nd\n\n1\n2\n3".data)).headI

/-- A concrete three-line file for the C6 witness. -/
def c6linesA : List LineInfo := getLinesWithInfo ("p\nq\nr".data) "A"

/-- The same three lines tagged as file B. -/
def c6linesB : List LineInfo := getLinesWithInfo ("p\nq\nr".data) "B"

/-- First retained (Unchanged) entry of the C5 witness scenario. -/
def c5e1 : DiffEntry :=
  (PerformDiff 11 20 ("1\n2\n3\nx\n4\n5\n6".data) ("1\n2\n3\ny\n4\n5\n6".data)).getD 2 default

/-- Second retained (Unchanged) entry of the C5 witness scenario. -/
def c5e2 : DiffEntry :=
  (PerformDiff 11 20 ("1\n2\n3\nx\n4\n5\n6".data) ("1\n2\n3\ny\n4\n5\n6".data)).getD 3 default

/-! ## Theorems -/
theorem levF_comm : ∀ (f : Nat) (xs ys : List Char), levF f xs ys = levF f ys xs := by
  intro f
  induction f with
  | zero =>
    intro xs ys
    cases xs <;> cases ys <;> simp [levF]
  | succ f ih =>
    intro xs ys
    cases xs with
    | nil => cases ys <;> simp [levF]
    | cons x xs =>
      cases ys with
      | nil => simp [levF]
      | cons y ys =>
        by_cases hxy : x = y
        · subst hxy
          simp [levF, ih xs ys]
        · have hyx : ¬ y = x := fun h => hxy h.symm
          simp only [levF, if_neg hxy, if_neg hyx]
          rw [ih xs ys, ih (x :: xs) ys, ih xs (y :: ys)]
          omega

theorem levF_le_max : ∀ (f : Nat) (xs ys : List Char),
    xs.length + ys.length ≤ f → levF f xs ys ≤ max xs.length ys.length := by
  intro f
  induction f with
  | zero =>
    intro xs ys h
    cases xs <;> cases ys <;> simp_all [levF]
  | succ f ih =>
    intro xs ys h
    cases xs with
    | nil => simp [levF]
    | cons x xs =>
      cases ys with
      | nil => simp [levF]
      | cons y ys =>
        simp only [List.length_cons] at h
        have h1 := ih xs ys (by omega)
        have h2 := ih (x :: xs) ys (by simp only [List.length_cons]; omega)
        have h3 := ih xs (y :: ys) (by simp only [List.length_cons]; omega)
        simp only [List.length_cons] at h1 h2 h3
        by_cases hxy : x = y
        · simp only [levF, if_pos hxy, List.length_cons]
          omega
        · simp only [levF, if_neg hxy, List.length_cons]
          omega

theorem levenshtein_le_max (a b : List Char) :
    levenshtein a b ≤ max a.length b.length :=
  levF_le_max _ a b le_rfl

theorem levenshtein_comm (a b : List Char) : levenshtein a b = levenshtein b a := by
  unfold levenshtein
  rw [Nat.add_comm b.length a.length]
  exact levF_comm _ a b

theorem toLowerChar_toNat_of_upper {c : Char} (h : 65 ≤ c.toNat ∧ c.toNat ≤ 90) :
    (toLowerChar c).toNat = c.toNat + 32 := by
  unfold toLowerChar
  rw [if_pos h]
  unfold Char.ofNat
  rw [dif_pos (Or.inl (by omega))]
  rfl

theorem toLowerChar_idem (c : Char) : toLowerChar (toLowerChar c) = toLowerChar c := by
  unfold toLowerChar
  by_cases h : 65 ≤ c.toNat ∧ c.toNat ≤ 90
  · rw [if_pos h]
    have hX : (Char.ofNat (c.toNat + 32)).toNat = c.toNat + 32 := by
      unfold Char.ofNat
      rw [dif_pos (Or.inl (by omega))]
      rfl
    rw [if_neg (by rw [hX]; omega)]
  · rw [if_neg h, if_neg h]

theorem mem_collapseAux : ∀ (b : Bool) (l : List Char) (c : Char),
    c ∈ collapseAux b l → c = ' ' ∨ c ∈ l := by
  intro b l
  induction l generalizing b with
  | nil => intro c h; cases b <;> exact absurd h (List.not_mem_nil c)
  | cons d cs ih =>
    intro c h
    by_cases hws : isWS d
    · rw [collapseAux, if_pos hws] at h
      cases b with
      | true =>
        rcases ih true c h with h1 | h1
        · exact Or.inl h1
        · exact Or.inr (List.mem_cons_of_mem _ h1)
      | false =>
        rw [if_neg (fun hc => Bool.false_ne_true hc)] at h
        simp only [List.mem_cons] at h
        rcases h with h1 | h1
        · exact Or.inl h1
        · rcases ih true c h1 with h2 | h2
          · exact Or.inl h2
          · exact Or.inr (List.mem_cons_of_mem _ h2)
    · rw [collapseAux, if_neg hws] at h
      simp only [List.mem_cons] at h
      rcases h with h1 | h1
      · exact Or.inr (by simp [h1])
      · rcases ih false c h1 with h2 | h2
        · exact Or.inl h2
        · exact Or.inr (List.mem_cons_of_mem _ h2)

theorem collapseAux_head_true : ∀ (l : List Char) (c : Char),
    (collapseAux true l).head? = some c → isWS c = false := by
  intro l
  induction l with
  | nil => intro c h; exact Option.noConfusion h
  | cons d cs ih =>
    intro c h
    by_cases hws : isWS d
    · rw [collapseAux, if_pos hws] at h
      exact ih c h
    · rw [collapseAux, if_neg hws] at h
      simp only [List.head?_cons, Option.some.injEq] at h
      subst h
      exact Bool.eq_false_iff.mpr hws

theorem collapseAux_chain : ∀ (b : Bool) (l : List Char),
    (collapseAux b l).Chain' noWSPair := by
  intro b l
  induction l generalizing b with
  | nil => cases b <;> exact List.chain'_nil
  | cons d cs ih =>
    by_cases hws : isWS d
    · cases b with
      | true =>
        have he : collapseAux true (d :: cs) = collapseAux true cs := by
          rw [collapseAux, if_pos hws, if_pos rfl]
        rw [he]; exact ih true
      | false =>
        have he : collapseAux false (d :: cs) = ' ' :: collapseAux true cs := by
          rw [collapseAux, if_pos hws, if_neg (fun hc => Bool.false_ne_true hc)]
        rw [he, List.chain'_cons']
        refine ⟨?_, ih true⟩
        intro y hy
        have hne := collapseAux_head_true cs y (Option.mem_def.mp hy)
        intro hcon
        rw [hne] at hcon
        exact Bool.false_ne_true hcon.2
    · have he : collapseAux b (d :: cs) = d :: collapseAux false cs := by
        rw [collapseAux, if_neg hws]
      rw [he, List.chain'_cons']
      refine ⟨?_, ih false⟩
      intro y _
      intro hcon
      exact hws hcon.1

theorem collapseAux_ws_mem : ∀ (b : Bool) (l : List Char) (c : Char),
    c ∈ collapseAux b l → isWS c = true → c = ' ' := by
  intro b l
  induction l generalizing b with
  | nil => intro c h _; cases b <;> exact absurd h (List.not_mem_nil c)
  | cons d cs ih =>
    intro c h hws
    by_cases hd : isWS d
    · rw [collapseAux, if_pos hd] at h
      cases b with
      | true => exact ih true c h hws
      | false =>
        rw [if_neg (fun hc => Bool.false_ne_true hc)] at h
        simp only [List.mem_cons] at h
        rcases h with h1 | h1
        · exact h1
        · exact ih true c h1 hws
    · rw [collapseAux, if_neg hd] at h
      simp only [List.mem_cons] at h
      rcases h with h1 | h1
      · subst h1; rw [hws] at hd; exact absurd rfl hd
      · exact ih false c h1 hws

theorem collapseAux_true_eq_false (l : List Char)
    (h : ∀ c, l.head? = some c → isWS c = false) :
    collapseAux true l = collapseAux false l := by
  cases l with
  | nil => rfl
  | cons d cs =>
    have hd := h d rfl
    rw [collapseAux, collapseAux, if_neg (by simp [hd]), if_neg (by simp [hd])]

theorem collapseAux_fixed : ∀ (l : List Char),
    (∀ c ∈ l, isWS c = true → c = ' ') → l.Chain' noWSPair →
    collapseAux false l = l := by
  intro l
  induction l with
  | nil => intro _ _; rfl
  | cons d cs ih =>
    intro hws hch
    rw [List.chain'_cons'] at hch
    by_cases hd : isWS d
    · have hd' : d = ' ' := hws d (by simp) hd
      rw [collapseAux, if_pos hd, if_neg (by simp), hd']
      have hhd : ∀ c, cs.head? = some c → isWS c = false := by
        intro c hc
        have := hch.1 c hc
        unfold noWSPair at this
        by_contra hcon
        exact this ⟨hd, by simpa using hcon⟩
      rw [collapseAux_true_eq_false cs hhd]
      rw [ih (fun c hc => hws c (List.mem_cons_of_mem _ hc)) hch.2]
    · rw [collapseAux, if_neg hd]
      rw [ih (fun c hc => hws c (List.mem_cons_of_mem _ hc)) hch.2]

theorem trimLeft_suffix (l : List Char) : trimLeft l <:+ l := List.dropWhile_suffix _

theorem trimRight_pref (l : List Char) : trimRight l <+: l := by
  unfold trimRight
  apply List.reverse_suffix.mp
  rw [List.reverse_reverse]
  exact List.dropWhile_suffix _

theorem trimWS_inf (l : List Char) : trimWS l <:+: l :=
 by
  obtain ⟨s, hs⟩ := trimRight_pref (trimLeft l)
  obtain ⟨t, ht⟩ := trimLeft_suffix l
  refine ⟨t, s, ?_⟩
  unfold trimWS
  rw [List.append_assoc, hs, ht]

theorem mem_trimWS {l : List Char} {c : Char} (h : c ∈ trimWS l) : c ∈ l :=
  (trimWS_inf l).subset h

theorem trimLeft_head {l : List Char} {c : Char}
    (h : (trimLeft l).head? = some c) : isWS c = false := by
  have := List.head?_dropWhile_not isWS l
  unfold trimLeft at h
  rw [h] at this
  exact this

theorem trimLeft_eq_self {l : List Char}
    (h : ∀ c, l.head? = some c → isWS c = false) : trimLeft l = l := by
  cases l with
  | nil => rfl
  | cons d cs =>
    have := h d rfl
    unfold trimLeft
    rw [List.dropWhile_cons, if_neg (by simp [this])]

theorem trimRight_reverse (l : List Char) :
    (trimRight l).reverse = l.reverse.dropWhile isWS := by
  unfold trimRight
  rw [List.reverse_reverse]

theorem trimRight_getLast {l : List Char} {c : Char}
    (h : (trimRight l).getLast? = some c) : isWS c = false := by
  rw [← List.head?_reverse, trimRight_reverse] at h
  have := List.head?_dropWhile_not isWS l.reverse
  rw [h] at this
  exact this

theorem trimRight_eq_self {l : List Char}
    (h : ∀ c, l.getLast? = some c → isWS c = false) : trimRight l = l := by
  have : l.reverse.dropWhile isWS = l.reverse := by
    apply trimLeft_eq_self
    intro c hc
    exact h c (by rwa [← List.head?_reverse])
  unfold trimRight
  rw [this, List.reverse_reverse]

theorem headq_of_pref {l₁ l₂ : List Char} (h : l₁ <+: l₂) (hne : l₁ ≠ []) :
    l₂.head? = l₁.head? := by
  rcases h with ⟨t, rfl⟩
  cases l₁ with
  | nil => exact absurd rfl hne
  | cons a l => rfl

theorem trimWS_idem (l : List Char) : trimWS (trimWS l) = trimWS l := by
  by_cases hne : trimWS l = []
  · rw [hne]; rfl
  · have hleft : trimLeft (trimWS l) = trimWS l := by
      apply trimLeft_eq_self
      intro c hc
      have hpre : trimWS l <+: trimLeft l := trimRight_pref (trimLeft l)
      have : (trimLeft l).head? = some c := by
        rw [headq_of_pref hpre hne]; exact hc
      exact trimLeft_head this
    unfold trimWS at hleft ⊢
    rw [hleft]
    apply trimRight_eq_self
    intro c hc
    exact @trimRight_getLast (trimLeft l) c hc

theorem NormalizeTextBlock_ws_mem {x : List Char} {c : Char}
    (h : c ∈ NormalizeTextBlock x) (hws : isWS c = true) : c = ' ' := by
  unfold NormalizeTextBlock at h
  exact collapseAux_ws_mem false _ c (mem_trimWS h) hws

theorem toLowerChar_space : toLowerChar ' ' = ' ' := by decide

theorem map_toLowerChar_norm (x : List Char) :
    (NormalizeTextBlock x).map toLowerChar = NormalizeTextBlock x := by
  have hall : ∀ c ∈ NormalizeTextBlock x, toLowerChar c = c := by
    intro c hc
    rcases mem_collapseAux false _ c (mem_trimWS hc) with h1 | h1
    · rw [h1]; exact toLowerChar_space
    · rcases List.mem_map.mp h1 with ⟨d, _, rfl⟩
      exact toLowerChar_idem d
  calc (NormalizeTextBlock x).map toLowerChar
      = (NormalizeTextBlock x).map id := List.map_congr_left hall
    _ = NormalizeTextBlock x := List.map_id _

theorem NormalizeTextBlock_chain (x : List Char) :
    (NormalizeTextBlock x).Chain' noWSPair :=
  List.Chain'.infix (collapseAux_chain false (x.map toLowerChar))
    (trimWS_inf (collapseWS (x.map toLowerChar)))

/-- **C9.** `NormalizeTextBlock` (lowercase, collapse whitespace runs to a single
space, trim) is idempotent: normalizing twice equals normalizing once. -/
theorem c9_normalize_idempotent (x : List Char) :
    NormalizeTextBlock (NormalizeTextBlock x) = NormalizeTextBlock x := by
  conv_lhs => rw [NormalizeTextBlock]
  rw [map_toLowerChar_norm]
  have hfix : collapseWS (NormalizeTextBlock x) = NormalizeTextBlock x := by
    unfold collapseWS
    exact collapseAux_fixed _ (fun c hc hws => NormalizeTextBlock_ws_mem hc hws)
      (NormalizeTextBlock_chain x)
  rw [hfix]
  conv_lhs => rw [show NormalizeTextBlock x = trimWS (collapseWS (x.map toLowerChar)) from rfl]
  rw [trimWS_idem]
  rfl

/-- **C9 witness**: idempotence evaluated at a concrete string. -/
theorem c9_normalize_idempotent_witness :
    NormalizeTextBlock (NormalizeTextBlock ("  A  b\tC ".data)) =
      NormalizeTextBlock ("  A  b\tC ".data) :=
  c9_normalize_idempotent ("  A  b\tC ".data)

/-- **C7.** `TextSimilarityNormalized` denotes a rational in [0,1] equal to
`1 - levenshtein(a,b) / max(|a|,|b|)`, with value 1 when both strings are empty
and 0 when exactly one of them is empty. -/
theorem c7_text_similarity_spec (a b : List Char) :
    simQ (TextSimilarityNormalized a b)
        = 1 - (levenshtein a b : ℚ) / ((max a.length b.length : Nat) : ℚ) ∧
      0 ≤ simQ (TextSimilarityNormalized a b) ∧
      simQ (TextSimilarityNormalized a b) ≤ 1 ∧
      (a = [] → b = [] → simQ (TextSimilarityNormalized a b) = 1) ∧
      (a = [] → b ≠ [] → simQ (TextSimilarityNormalized a b) = 0) ∧
      (a ≠ [] → b = [] → simQ (TextSimilarityNormalized a b) = 0) := by
  have key : simQ (TextSimilarityNormalized a b)
      = 1 - (levenshtein a b : ℚ) / ((max a.length b.length : Nat) : ℚ) ∧
      0 ≤ simQ (TextSimilarityNormalized a b) ∧
      simQ (TextSimilarityNormalized a b) ≤ 1 := by
    by_cases ha : a.length = 0
    · by_cases hb : b.length = 0
      · have hz : TextSimilarityNormalized a b = (1, 1) := by
          unfold TextSimilarityNormalized
          rw [if_pos ⟨ha, hb⟩]
        have hlev : levenshtein a b = 0 := by
          rw [List.length_eq_zero] at ha hb
          subst ha; subst hb; rfl
        rw [hz, hlev, ha, hb]
        norm_num [simQ]
      · have hz : TextSimilarityNormalized a b = (0, 1) := by
          unfold TextSimilarityNormalized
          rw [if_neg (by tauto), if_pos (Or.inl ha)]
        have hlev : levenshtein a b = b.length := by
          rw [List.length_eq_zero] at ha
          subst ha
          cases b with
          | nil => rfl
          | cons y ys => rfl
        have hmax : max a.length b.length = b.length := by omega
        rw [hz, hlev, hmax]
        have hbq : ((b.length : ℚ)) ≠ 0 := by
          exact_mod_cast hb
        constructor
        · rw [div_self hbq]; norm_num [simQ]
        · norm_num [simQ]
    · by_cases hb : b.length = 0
      · have hz : TextSimilarityNormalized a b = (0, 1) := by
          unfold TextSimilarityNormalized
          rw [if_neg (by tauto), if_pos (Or.inr hb)]
        have hlev : levenshtein a b = a.length := by
          rw [List.length_eq_zero] at hb
          subst hb
          cases a with
          | nil => rfl
          | cons y ys => rfl
        have hmax : max a.length b.length = a.length := by omega
        rw [hz, hlev, hmax]
        have haq : ((a.length : ℚ)) ≠ 0 := by
          exact_mod_cast ha
        constructor
        · rw [div_self haq]; norm_num [simQ]
        · norm_num [simQ]
      · have hd := levenshtein_le_max a b
        have hmaxpos : 0 < max a.length b.length := by omega
        have hz : TextSimilarityNormalized a b
            = (max a.length b.length - levenshtein a b, max a.length b.length) := by
          unfold TextSimilarityNormalized
          rw [if_neg (by tauto), if_neg (by tauto), if_neg (by omega)]
        rw [hz]
        unfold simQ
        refine ⟨?_, ?_, ?_⟩
        · push_cast [Nat.cast_sub hd]
          field_simp
        · apply div_nonneg <;> positivity
        · rw [div_le_one (by positivity)]
          push_cast [Nat.cast_sub hd]
          have : (0:ℚ) ≤ (levenshtein a b : ℚ) := by positivity
          linarith
  refine ⟨key.1, key.2.1, key.2.2, ?_, ?_, ?_⟩
  · intro h1 h2
    subst h1; subst h2
    have hz : TextSimilarityNormalized ([] : List Char) [] = (1, 1) := rfl
    rw [hz]
    norm_num [simQ]
  · intro h1 h2
    have hz : TextSimilarityNormalized a b = (0, 1) := by
      unfold TextSimilarityNormalized
      subst h1
      rw [if_neg (by simp [List.length_eq_zero]; tauto),
        if_pos (Or.inl List.length_nil)]
    rw [hz]
    norm_num [simQ]
  · intro h1 h2
    have hz : TextSimilarityNormalized a b = (0, 1) := by
      unfold TextSimilarityNormalized
      subst h2
      rw [if_neg (by simp [List.length_eq_zero]; tauto),
        if_pos (Or.inr List.length_nil)]
    rw [hz]
    norm_num [simQ]

/-- **C7 witness**: the empty-versus-nonempty cases evaluated concretely. -/
theorem c7_text_similarity_spec_witness :
    (("a".data : List Char) ≠ [] ∧ simQ (TextSimilarityNormalized "a".data []) = 0) ∧
      (("".data : List Char) = [] ∧ simQ (TextSimilarityNormalized "".data "".data) = 1) :=
  ⟨⟨by decide, (c7_text_similarity_spec "a".data []).2.2.2.2.2 (by decide) rfl⟩,
   ⟨rfl, (c7_text_similarity_spec "".data "".data).2.2.2.1 rfl rfl⟩⟩

/-- **C10.** The similarity kernel is symmetric in its two arguments. -/
theorem c10_text_similarity_comm (a b : List Char) :
    TextSimilarityNormalized a b = TextSimilarityNormalized b a := by
  unfold TextSimilarityNormalized
  rw [levenshtein_comm a b, Nat.max_comm a.length b.length]
  by_cases ha : a.length = 0 <;> by_cases hb : b.length = 0 <;>
    simp_all [and_comm, or_comm]

/-- **C3 counterexample.** On this input the output is `[Modified, Moved]`:
the code's enumeration sorts Modified (2) before Moved (3), so the claim's
category order (Moved before Modified) is violated. -/
theorem c3_counterexample :
    ¬ ((PerformDiff 11 20 ("1\n2\n3\n\na\nb\nc".data) ("a\nb\nd\n\n1\n2\n3".data)).Pairwise
      fun e1 e2 => specRankC3 e1.type ≤ specRankC3 e2.type) := by
  decide

/-- **C3 (amended).** The entry sequence returned by `PerformDiff` is sorted
with categories in the order Added, Deleted, **Modified, Moved**, Unchanged
(`DiffType.rank`); within a category, entries carrying an A block come first,
ordered by A line start then A ID, and entries with only a B block follow,
ordered by B line start then B ID — i.e. the output is pairwise ordered by the
lexicographic relation `le7` on `key7`. -/
theorem c3_sorted_amended (tNum tDen : Nat) (a b : List Char) :
    (PerformDiff tNum tDen a b).Pairwise le7 := by
  unfold PerformDiff
  exact List.sorted_insertionSort le7 _

/-- **C4 counterexample.** For the gap `["a", ""]` the only emitted block has
segment text `"a"`; the only line record contributing characters to it is
original line 1, yet the block reports `LineEnd = 2`: the reconstruction loop
also consumed the empty line record, and the range is taken from the consumed
records, not from the contributing ones. -/
theorem c4_counterexample :
    ((SegmentGapText [c4line1, c4line2] "A" 0).1.map fun blk =>
        (blk.originalText, blk.lineStart, blk.lineEnd)) = [("a".data, 1, 2)] ∧
      (([c4line1, c4line2].filter fun li => li.originalText ≠ []).map
        fun li => li.originalLineNum) = [1] := by
  constructor
  · decide
  · decide

theorem segStep_range (origin : String) :
    ∀ (paras : List (List Char)) (st : List LineInfo × List ContentBlock × Nat),
    (∀ blk ∈ st.2.1, blockRangeOK blk) →
    ∀ blk ∈ (paras.foldl (segStep origin) st).2.1, blockRangeOK blk := by
  intro paras
  induction paras with
  | nil => intro st h blk hb; exact h blk hb
  | cons para rest ih =>
    intro st h blk hb
    refine ih _ ?_ blk hb
    intro blk2 hb2
    unfold segStep at hb2
    by_cases h1 : trimWS para = []
    · rw [if_pos h1] at hb2
      exact h blk2 hb2
    · rw [if_neg h1] at hb2
      by_cases h2 : (consumePara st.1 [] para).1 = []
      · rw [if_pos h2] at hb2
        exact h blk2 hb2
      · rw [if_neg h2] at hb2
        simp only [List.mem_append, List.mem_singleton] at hb2
        rcases hb2 with h3 | h3
        · exact h blk2 h3
        · subst h3
          exact ⟨h2, rfl, rfl⟩

/-- **C4 (amended).** Every block emitted by `SegmentGapText` reports
`LineStart`/`LineEnd` equal to the original line numbers of the first and last
line records *consumed for* its segment by the reconstruction loop (stored in
`sourceLineRefs`); these may include adjacent blank records that contributed no
characters to the segment. -/
theorem c4_range_amended (gapLines : List LineInfo) (fileOrigin : String)
    (startBlockID : Nat) (blk : ContentBlock)
    (hb : blk ∈ (SegmentGapText gapLines fileOrigin startBlockID).1) :
    blk.sourceLineRefs ≠ [] ∧
      blk.lineStart = blk.sourceLineRefs.headI.originalLineNum ∧
      blk.lineEnd = (blk.sourceLineRefs.getLast?.getD default).originalLineNum := by
  unfold SegmentGapText at hb
  by_cases hempty : gapLines = []
  · rw [if_pos hempty] at hb
    exact absurd hb (List.not_mem_nil blk)
  · rw [if_neg hempty] at hb
    exact segStep_range fileOrigin _ _ (fun b hbm => absurd hbm (List.not_mem_nil b)) blk hb

/-- **C4 (amended) witness**: the amended range property evaluated on the
concrete gap of the counterexample. -/
theorem c4_range_amended_witness :
    c4blk ∈ (SegmentGapText [c4line1, c4line2] "A" 0).1 ∧
      (c4blk.sourceLineRefs ≠ [] ∧
        c4blk.lineStart = c4blk.sourceLineRefs.headI.originalLineNum ∧
        c4blk.lineEnd = (c4blk.sourceLineRefs.getLast?.getD default).originalLineNum) :=
  ⟨by decide, c4_range_amended [c4line1, c4line2] "A" 0 c4blk (by decide)⟩

/-! ### Megablock scan lemmas -/

theorem runLenL_le_left : ∀ (x y : List LineInfo), runLenL x y ≤ x.length := by
  intro x
  induction x with
  | nil => intro y; cases y <;> simp [runLenL]
  | cons a as ih =>
    intro y
    cases y with
    | nil => simp [runLenL]
    | cons b bs =>
      simp only [runLenL, List.length_cons]
      by_cases h : a.isPartOfMega = false ∧ b.isPartOfMega = false ∧ a.checksum = b.checksum
      · rw [if_pos h]
        have := ih bs
        omega
      · rw [if_neg h]
        omega

theorem runLenL_le_right : ∀ (x y : List LineInfo), runLenL x y ≤ y.length := by
  intro x
  induction x with
  | nil => intro y; cases y <;> simp [runLenL]
  | cons a as ih =>
    intro y
    cases y with
    | nil => simp [runLenL]
    | cons b bs =>
      simp only [runLenL, List.length_cons]
      by_cases h : a.isPartOfMega = false ∧ b.isPartOfMega = false ∧ a.checksum = b.checksum
      · rw [if_pos h]
        have := ih bs
        omega
      · rw [if_neg h]
        omega

theorem runLen_le_lenA (A B : List LineInfo) (i j : Nat) : runLen A B i j ≤ A.length := by
  unfold runLen
  calc runLenL (A.drop i) (B.drop j) ≤ (A.drop i).length := runLenL_le_left _ _
    _ ≤ A.length := by simp

theorem runLen_le_lenB (A B : List LineInfo) (i j : Nat) : runLen A B i j ≤ B.length := by
  unfold runLen
  calc runLenL (A.drop i) (B.drop j) ≤ (B.drop j).length := runLenL_le_right _ _
    _ ≤ B.length := by simp

theorem runLenL_map_map {α : Type} (f g : α → LineInfo)
    (hf : ∀ x, (f x).isPartOfMega = false) (hg : ∀ x, (g x).isPartOfMega = false)
    (hc : ∀ x, (f x).checksum = (g x).checksum) :
    ∀ L : List α, runLenL (L.map f) (L.map g) = L.length := by
  intro L
  induction L with
  | nil => rfl
  | cons x xs ih =>
    simp only [List.map_cons, runLenL, List.length_cons]
    rw [if_pos ⟨hf x, hg x, hc x⟩, ih]

theorem megaStep_of_le (A B : List LineInfo) (st : Nat × Nat × Nat) (p : Nat × Nat)
    (h : runLen A B p.1 p.2 ≤ st.1) : megaStep A B st p = st := by
  unfold megaStep
  by_cases h1 : (A.getD p.1 default).isPartOfMega
  · rw [if_pos h1]
  · rw [if_neg h1]
    by_cases h2 : (B.getD p.2 default).isPartOfMega
    · rw [if_pos h2]
    · rw [if_neg h2]
      by_cases h3 : (A.getD p.1 default).checksum = (B.getD p.2 default).checksum
      · rw [if_pos h3, if_neg (by omega)]
      · rw [if_neg h3]

theorem foldl_megaStep_stable (A B : List LineInfo) :
    ∀ (ps : List (Nat × Nat)) (st : Nat × Nat × Nat),
    (∀ p ∈ ps, runLen A B p.1 p.2 ≤ st.1) →
    ps.foldl (megaStep A B) st = st := by
  intro ps
  induction ps with
  | nil => intro st _; rfl
  | cons p rest ih =>
    intro st h
    rw [List.foldl_cons, megaStep_of_le A B st p (h p (by simp))]
    exact ih st fun q hq => h q (by simp [hq])

theorem foldl_megaStep_bound (A B : List LineInfo) :
    ∀ (ps : List (Nat × Nat)) (st : Nat × Nat × Nat) (m : Nat),
    st.1 ≤ m → (∀ p ∈ ps, runLen A B p.1 p.2 ≤ m) →
    (ps.foldl (megaStep A B) st).1 ≤ m := by
  intro ps
  induction ps with
  | nil => intro st m h _; exact h
  | cons p rest ih =>
    intro st m h hall
    rw [List.foldl_cons]
    refine ih _ m ?_ fun q hq => hall q (by simp [hq])
    unfold megaStep
    by_cases h1 : (A.getD p.1 default).isPartOfMega
    · rw [if_pos h1]; exact h
    · rw [if_neg h1]
      by_cases h2 : (B.getD p.2 default).isPartOfMega
      · rw [if_pos h2]; exact h
      · rw [if_neg h2]
        by_cases h3 : (A.getD p.1 default).checksum = (B.getD p.2 default).checksum
        · rw [if_pos h3]
          by_cases h4 : st.1 < runLen A B p.1 p.2
          · rw [if_pos h4]
            exact hall p (by simp)
          · rw [if_neg h4]; exact h
        · rw [if_neg h3]; exact h

theorem findNext_none_of_small (A B : List LineInfo)
    (h : ∀ p ∈ megaPairs A B, runLen A B p.1 p.2 ≤ 2) :
    findNextGreedyMegaMatch A B = none := by
  unfold findNextGreedyMegaMatch
  have hb := foldl_megaStep_bound A B (megaPairs A B) (0, 0, 0) 2 (by simp) h
  rw [if_neg (by intro hc; have h3 : (3 : Nat) ≤ _ := hc; omega)]

theorem findNext_none_left_single (e : LineInfo) (B : List LineInfo) :
    findNextGreedyMegaMatch [e] B = none := by
  apply findNext_none_of_small
  intro p _
  calc runLen [e] B p.1 p.2 ≤ ([e] : List LineInfo).length := runLen_le_lenA _ _ _ _
    _ ≤ 2 := by simp

theorem findNext_none_right_single (A : List LineInfo) (e : LineInfo) :
    findNextGreedyMegaMatch A [e] = none := by
  apply findNext_none_of_small
  intro p _
  calc runLen A [e] p.1 p.2 ≤ ([e] : List LineInfo).length := runLen_le_lenB _ _ _ _
    _ ≤ 2 := by simp

theorem megaPairs_cons (A B : List LineInfo) (hA : 0 < A.length) (hB : 0 < B.length) :
    ∃ t, megaPairs A B = (0, 0) :: t := by
  unfold megaPairs
  obtain ⟨n, hn⟩ : ∃ n, A.length = n + 1 := ⟨A.length - 1, by omega⟩
  obtain ⟨k, hk⟩ : ∃ k, B.length = k + 1 := ⟨B.length - 1, by omega⟩
  rw [hn, hk, List.range_succ_eq_map, List.range_succ_eq_map]
  exact ⟨_, by rw [List.flatMap_cons, List.map_cons, List.cons_append]⟩

theorem findNext_self {α : Type} (L : List α) (f g : α → LineInfo)
    (hf : ∀ x, (f x).isPartOfMega = false) (hg : ∀ x, (g x).isPartOfMega = false)
    (hc : ∀ x, (f x).checksum = (g x).checksum) (hlen : 3 ≤ L.length) :
    findNextGreedyMegaMatch (L.map f) (L.map g) = some (0, 0, L.length) := by
  obtain ⟨x, xs, rfl⟩ : ∃ x xs, L = x :: xs := by
    cases L with
    | nil => simp at hlen
    | cons x xs => exact ⟨x, xs, rfl⟩
  have hrun0 : runLen ((x :: xs).map f) ((x :: xs).map g) 0 0 = (x :: xs).length := by
    unfold runLen
    rw [List.drop_zero, List.drop_zero, runLenL_map_map f g hf hg hc]
  obtain ⟨t, ht⟩ := megaPairs_cons ((x :: xs).map f) ((x :: xs).map g)
    (by simp) (by simp)
  unfold findNextGreedyMegaMatch
  rw [ht, List.foldl_cons]
  have hstep : megaStep ((x :: xs).map f) ((x :: xs).map g) (0, 0, 0) (0, 0)
      = ((x :: xs).length, 0, 0) := by
    unfold megaStep
    simp only [List.map_cons, List.getD_cons_zero]
    rw [if_neg (by simp [hf x]), if_neg (by simp [hg x]), if_pos (hc x)]
    rw [if_pos (by simp only [List.map_cons] at hrun0; rw [hrun0]; simp)]
    simp only [List.map_cons] at hrun0
    rw [hrun0]
  rw [hstep]
  rw [foldl_megaStep_stable _ _ t ((x :: xs).length, 0, 0)
    (fun p _ => by
      have := runLen_le_lenA ((x :: xs).map f) ((x :: xs).map g) p.1 p.2
      simpa using this)]
  rw [if_pos (by exact hlen)]

theorem megaLoop_none (f : Nat) (A B : List LineInfo) (m : List DiffEntry) (c : Nat)
    (h : findNextGreedyMegaMatch A B = none) :
    megaLoop (f + 1) A B m c = (A, B, m, c) := by
  simp only [megaLoop, h]

theorem megaLoop_some (f : Nat) (A B : List LineInfo) (m : List DiffEntry) (c : Nat)
    (aS bS len : Nat) (h : findNextGreedyMegaMatch A B = some (aS, bS, len)) :
    megaLoop (f + 1) A B m c =
      megaLoop f (markConsumed A aS len) (markConsumed B bS len)
        (m ++ [{ type := DiffType.unchanged, blockA := some (mkMegaBlock A aS len c "A"),
                 blockB := some (mkMegaBlock B bS len (c + 1) "B"),
                 similarity := (0, 1) }]) (c + 2) := by
  simp only [megaLoop, h]

theorem markConsumed_full (l : List LineInfo) :
    ∀ li ∈ markConsumed l 0 l.length, li.isPartOfMega = true := by
  intro li hli
  unfold markConsumed at hli
  rcases List.mem_map.mp hli with ⟨p, hp, rfl⟩
  have := List.mem_enum hp
  rw [if_pos (by omega)]

/-! ### Gap-collection lemmas for degenerate cases -/

theorem gapFold_consumed (o : String) :
    ∀ (lines : List LineInfo) (blocks : List ContentBlock) (c : Nat),
    (∀ li ∈ lines, li.isPartOfMega = true) →
    lines.foldl (gapStep o) ([], blocks, c) = ([], blocks, c) := by
  intro lines
  induction lines with
  | nil => intro blocks c _; rfl
  | cons li rest ih =>
    intro blocks c h
    rw [List.foldl_cons]
    have hstep : gapStep o ([], blocks, c) li = ([], blocks, c) := by
      unfold gapStep
      rw [if_neg (by rw [h li (by simp)]; simp), if_pos rfl]
    rw [hstep]
    exact ih blocks c fun q hq => h q (by simp [hq])

theorem collectGaps_consumed (lines : List LineInfo) (o : String) (c : Nat)
    (h : ∀ li ∈ lines, li.isPartOfMega = true) :
    collectGaps lines o c = ([], c) := by
  unfold collectGaps
  rw [gapFold_consumed o lines [] c h]
  rfl

/-! ### Semantic-stage degenerate lemmas -/

theorem semStep_emptyB (tNum tDen : Nat) (st : List Nat × List Nat × List DiffEntry)
    (a : ContentBlock) : semStep tNum tDen [] st a = st := by
  unfold semStep
  by_cases h : numLines a.originalText < MinParagraphLinesForSemanticMatch
  · rw [if_pos h]
  · rw [if_neg h]
    rfl

theorem semStage_emptyB (tNum tDen : Nat) (gA : List ContentBlock) :
    semStage tNum tDen gA [] = ([], [], []) := by
  unfold semStage
  generalize List.insertionSort leID gA = l
  induction l with
  | nil => rfl
  | cons a rest ih =>
    rw [List.foldl_cons, semStep_emptyB]
    exact ih

theorem semStage_emptyA (tNum tDen : Nat) (gB : List ContentBlock) :
    semStage tNum tDen [] gB = ([], [], []) := rfl

/-! ### LIS singleton lemma -/

theorem findLISIndices_singleton (e : DiffEntry) (bb : ContentBlock)
    (h : e.blockB = some bb) : findLISIndices [e] = [0] := by
  unfold findLISIndices
  rw [if_neg (by simp), if_neg (by simp [h])]
  simp [h, lisStep, searchGE, lisRecon]

theorem runLen_zero_of_consumedA (A B : List LineInfo)
    (h : ∀ li ∈ A, li.isPartOfMega = true) (i j : Nat) : runLen A B i j = 0 := by
  unfold runLen
  cases hd : A.drop i with
  | nil => cases B.drop j <;> rfl
  | cons x xs =>
    cases B.drop j with
    | nil => rfl
    | cons y ys =>
      have hx : x ∈ A := List.mem_of_mem_drop (hd ▸ List.mem_cons_self x xs)
      simp [runLenL, h x hx]

theorem findNext_none_all_consumedA (A B : List LineInfo)
    (h : ∀ li ∈ A, li.isPartOfMega = true) :
    findNextGreedyMegaMatch A B = none :=
  findNext_none_of_small A B fun p _ => by rw [runLen_zero_of_consumedA A B h]; omega

theorem lisStage_nil : lisStage [] = [] := rfl

theorem lisStage_singleton (e : DiffEntry) (bb : ContentBlock) (h : e.blockB = some bb) :
    lisStage [e] = [e] := by
  unfold lisStage
  have hsort : List.insertionSort leA [e] = [e] := by
    simp [List.insertionSort, List.orderedInsert]
  rw [hsort, findLISIndices_singleton e bb h]
  simp

/-! ### C2: behaviour on equal and empty inputs -/

theorem performDiff_self (tNum tDen : Nat) (a : List Char)
    (hlen : MinMegaBlockLength ≤ (getLinesWithInfo a "A").length) :
    ∀ e ∈ PerformDiff tNum tDen a a, e.type = DiffType.unchanged := by
  intro e he
  have hlen3 : 3 ≤ (getLinesWithInfo a "A").length := hlen
  have hm1 : findNextGreedyMegaMatch (getLinesWithInfo a "A") (getLinesWithInfo a "B")
      = some (0, 0, (getLinesWithInfo a "A").length) := by
    have heq : (((replCRLF a).splitOn '\n').enum).length = (getLinesWithInfo a "A").length :=
      (List.length_map _ _).symm
    have h := findNext_self (((replCRLF a).splitOn '\n').enum) (mkLineInfo "A")
      (mkLineInfo "B") (fun _ => rfl) (fun _ => rfl) (fun _ => rfl) (by omega)
    rw [heq] at h
    exact h
  have hconsA : ∀ li ∈ markConsumed (getLinesWithInfo a "A") 0 (getLinesWithInfo a "A").length,
      li.isPartOfMega = true := markConsumed_full _
  have hconsB : ∀ li ∈ markConsumed (getLinesWithInfo a "B") 0 (getLinesWithInfo a "A").length,
      li.isPartOfMega = true := by
    have hBA : (getLinesWithInfo a "A").length = (getLinesWithInfo a "B").length := by
      simp [getLinesWithInfo]
    rw [hBA]
    exact markConsumed_full _
  have hnone := findNext_none_all_consumedA
    (markConsumed (getLinesWithInfo a "A") 0 (getLinesWithInfo a "A").length)
    (markConsumed (getLinesWithInfo a "B") 0 (getLinesWithInfo a "A").length) hconsA
  have hm : megaLoop ((getLinesWithInfo a "A").length + 1) (getLinesWithInfo a "A")
      (getLinesWithInfo a "B") [] 0
      = (markConsumed (getLinesWithInfo a "A") 0 (getLinesWithInfo a "A").length,
         markConsumed (getLinesWithInfo a "B") 0 (getLinesWithInfo a "A").length,
         [{ type := DiffType.unchanged,
            blockA := some (mkMegaBlock (getLinesWithInfo a "A") 0
              (getLinesWithInfo a "A").length 0 "A"),
            blockB := some (mkMegaBlock (getLinesWithInfo a "B") 0
              (getLinesWithInfo a "A").length 1 "B"),
            similarity := (0, 1) }], 2) := by
    rw [megaLoop_some _ _ _ _ _ _ _ _ hm1]
    obtain ⟨f, hf⟩ : ∃ f, (getLinesWithInfo a "A").length = f + 1 :=
      ⟨(getLinesWithInfo a "A").length - 1, by omega⟩
    nth_rewrite 1 [hf]
    rw [megaLoop_none f _ _ _ _ hnone]
    simp
  simp only [PerformDiff, hm] at he
  rw [collectGaps_consumed _ _ _ hconsA, collectGaps_consumed _ _ _ hconsB] at he
  rw [semStage_emptyA] at he
  rw [List.append_nil] at he
  rw [lisStage_singleton _ _ rfl] at he
  simp only [mkDeleted, mkAdded, List.filter_nil, List.map_nil, List.append_nil] at he
  rw [List.mem_insertionSort] at he
  rw [List.mem_singleton] at he
  subst he
  rfl

theorem performDiff_emptyA (tNum tDen : Nat) (b : List Char) :
    ∀ e ∈ PerformDiff tNum tDen [] b, e.type = DiffType.added := by
  intro e he
  have hm1 : findNextGreedyMegaMatch (getLinesWithInfo [] "A") (getLinesWithInfo b "B")
      = none := findNext_none_left_single _ _
  have hm : megaLoop ((getLinesWithInfo [] "A").length + 1) (getLinesWithInfo [] "A")
      (getLinesWithInfo b "B") [] 0
      = (getLinesWithInfo [] "A", getLinesWithInfo b "B", [], 0) :=
    megaLoop_none 1 _ _ _ _ hm1
  have hgA : collectGaps (getLinesWithInfo [] "A") "A" 0 = ([], 0) := by decide
  simp only [PerformDiff, hm] at he
  rw [hgA] at he
  rw [semStage_emptyA] at he
  simp only [List.append_nil, List.nil_append] at he
  rw [lisStage_nil] at he
  simp only [mkDeleted, List.filter_nil, List.map_nil, List.nil_append] at he
  rw [List.mem_insertionSort] at he
  unfold mkAdded at he
  rcases List.mem_map.mp he with ⟨blk, _, rfl⟩
  rfl

theorem performDiff_emptyB (tNum tDen : Nat) (a : List Char) :
    ∀ e ∈ PerformDiff tNum tDen a [], e.type = DiffType.deleted := by
  intro e he
  have hm1 : findNextGreedyMegaMatch (getLinesWithInfo a "A") (getLinesWithInfo [] "B")
      = none := findNext_none_right_single _ _
  have hm : ∀ f, megaLoop (f + 1) (getLinesWithInfo a "A")
      (getLinesWithInfo [] "B") [] 0
      = (getLinesWithInfo a "A", getLinesWithInfo [] "B", [], 0) :=
    fun f => megaLoop_none f _ _ _ _ hm1
  obtain ⟨f, hf⟩ : ∃ f, (getLinesWithInfo a "A").length = f :=
    ⟨(getLinesWithInfo a "A").length, rfl⟩
  have hgB : ∀ c, collectGaps (getLinesWithInfo [] "B") "B" c = ([], c) := fun c => rfl
  simp only [PerformDiff, hm] at he
  rw [hgB] at he
  rw [semStage_emptyB] at he
  simp only [List.append_nil, List.nil_append] at he
  rw [lisStage_nil] at he
  simp only [mkAdded, List.filter_nil, List.map_nil, List.append_nil, List.nil_append] at he
  rw [List.mem_insertionSort] at he
  unfold mkDeleted at he
  rcases List.mem_map.mp he with ⟨blk, _, rfl⟩
  rfl

/-! ### C1: threshold compliance -/

theorem sim_den_pos (a b : List Char) : 0 < (TextSimilarityNormalized a b).2 := by
  unfold TextSimilarityNormalized
  by_cases h1 : a.length = 0 ∧ b.length = 0
  · rw [if_pos h1]; exact Nat.one_pos
  · rw [if_neg h1]
    by_cases h2 : a.length = 0 ∨ b.length = 0
    · rw [if_pos h2]; exact Nat.one_pos
    · rw [if_neg h2]
      by_cases h3 : max a.length b.length = 0
      · simp only [h3, if_pos rfl]; exact Nat.one_pos
      · simp only [if_neg h3]; omega

theorem megaLoop_entries (P : DiffEntry → Prop)
    (hP : ∀ (A B : List LineInfo) (aS bS len c : Nat),
      P { type := DiffType.unchanged, blockA := some (mkMegaBlock A aS len c "A"),
          blockB := some (mkMegaBlock B bS len (c + 1) "B"), similarity := (0, 1) }) :
    ∀ (f : Nat) (A B : List LineInfo) (m : List DiffEntry) (c : Nat),
    (∀ e ∈ m, P e) → ∀ e ∈ (megaLoop f A B m c).2.2.1, P e := by
  intro f
  induction f with
  | zero => intro A B m c hm e he; exact hm e he
  | succ f ih =>
    intro A B m c hm e he
    cases hh : findNextGreedyMegaMatch A B with
    | none =>
      rw [megaLoop_none f A B m c hh] at he
      exact hm e he
    | some v =>
      obtain ⟨aS, bS, len⟩ := v
      rw [megaLoop_some f A B m c aS bS len hh] at he
      refine ih _ _ _ _ ?_ e he
      intro e2 he2
      rcases List.mem_append.mp he2 with h1 | h1
      · exact hm e2 h1
      · rw [List.mem_singleton] at h1
        subst h1
        exact hP A B aS bS len c

theorem bestFold_sim (aNorm : List Char) (pB : List Nat) :
    ∀ (gB : List ContentBlock) (st : Option (ContentBlock × (Nat × Nat))),
    (∀ bb hi, st = some (bb, hi) → hi = TextSimilarityNormalized aNorm bb.normalizedText) →
    ∀ bb hi, gB.foldl (bestStep aNorm pB) st = some (bb, hi) →
      hi = TextSimilarityNormalized aNorm bb.normalizedText := by
  intro gB
  induction gB with
  | nil => intro st h bb hi hf; exact h bb hi hf
  | cons b rest ih =>
    intro st h bb hi hf
    rw [List.foldl_cons] at hf
    refine ih _ ?_ bb hi hf
    intro bb2 hi2 hs
    unfold bestStep at hs
    by_cases h1 : b.id ∈ pB
    · rw [if_pos h1] at hs; exact h bb2 hi2 hs
    · rw [if_neg h1] at hs
      by_cases h2 : numLines b.originalText < MinParagraphLinesForSemanticMatch
      · rw [if_pos h2] at hs; exact h bb2 hi2 hs
      · rw [if_neg h2] at hs
        cases hst : st with
        | none =>
          rw [hst] at hs
          simp only [Option.some.injEq, Prod.mk.injEq] at hs
          rw [← hs.1, ← hs.2]
        | some v =>
          obtain ⟨bb3, hi3⟩ := v
          rw [hst] at hs
          simp only [] at hs
          by_cases h3 : hi3.1 * (TextSimilarityNormalized aNorm b.normalizedText).2 <
              (TextSimilarityNormalized aNorm b.normalizedText).1 * hi3.2
          · rw [if_pos h3] at hs
            simp only [Option.some.injEq, Prod.mk.injEq] at hs
            rw [← hs.1, ← hs.2]
          · rw [if_neg h3] at hs
            simp only [Option.some.injEq, Prod.mk.injEq] at hs
            refine hs.1 ▸ hs.2 ▸ h bb3 hi3 ?_
            rw [hst]

theorem semFold_entries (tNum tDen : Nat) (gB : List ContentBlock) :
    ∀ (la : List ContentBlock) (st : List Nat × List Nat × List DiffEntry),
    (∀ e ∈ st.2.2, e.type = DiffType.modified ∧
      tNum * e.similarity.2 ≤ e.similarity.1 * tDen ∧ 0 < e.similarity.2) →
    ∀ e ∈ (la.foldl (semStep tNum tDen gB) st).2.2,
      e.type = DiffType.modified ∧
        tNum * e.similarity.2 ≤ e.similarity.1 * tDen ∧ 0 < e.similarity.2 := by
  intro la
  induction la with
  | nil => intro st h e he; exact h e he
  | cons a rest ih =>
    intro st h e he
    rw [List.foldl_cons] at he
    refine ih _ ?_ e he
    intro e2 he2
    unfold semStep at he2
    by_cases h1 : numLines a.originalText < MinParagraphLinesForSemanticMatch
    · rw [if_pos h1] at he2; exact h e2 he2
    · rw [if_neg h1] at he2
      cases hf : gB.foldl (bestStep a.normalizedText st.2.1) none with
      | none => rw [hf] at he2; exact h e2 he2
      | some v =>
        obtain ⟨b, hi⟩ := v
        rw [hf] at he2
        simp only [] at he2
        by_cases h2 : tNum * hi.2 ≤ hi.1 * tDen
        · rw [if_pos h2] at he2
          simp only [List.mem_append, List.mem_singleton] at he2
          rcases he2 with h3 | h3
          · exact h e2 h3
          · subst h3
            refine ⟨rfl, h2, ?_⟩
            have := bestFold_sim a.normalizedText st.2.1 gB none
              (by intro bb hi hc; exact absurd hc (by simp)) b hi hf
            rw [this]
            exact sim_den_pos _ _
        · rw [if_neg h2] at he2; exact h e2 he2

theorem semStage_entries (tNum tDen : Nat) (gA gB : List ContentBlock) :
    ∀ e ∈ (semStage tNum tDen gA gB).2.2,
      e.type = DiffType.modified ∧
        tNum * e.similarity.2 ≤ e.similarity.1 * tDen ∧ 0 < e.similarity.2 :=
  semFold_entries tNum tDen gB _ _ (by intro e he; exact absurd he (by simp))

theorem lisStage_shape (pairs : List DiffEntry) :
    ∀ e ∈ lisStage pairs, ∃ e' ∈ pairs,
      e = e' ∨ e = { type := DiffType.moved, blockA := e'.blockA, blockB := e'.blockB,
                     similarity := e'.similarity } := by
  intro e he
  unfold lisStage at he
  rcases List.mem_map.mp he with ⟨p, hp, rfl⟩
  have hmem := List.mem_enum hp
  refine ⟨p.2, ?_, ?_⟩
  · rw [← List.mem_insertionSort leA, hmem.2]
    exact List.getElem_mem _
  · by_cases hc : p.1 ∈ findLISIndices (List.insertionSort leA pairs)
    · rw [if_pos hc]; exact Or.inl rfl
    · rw [if_neg hc]; exact Or.inr rfl

/-- **C1 counterexample.** On this input `PerformDiff` (threshold 11/20 = 0.55)
returns a Moved entry carrying the `float32` zero default similarity `(0, 1)`:
a megablock re-classified as Moved never received a similarity score, so its
score 0 is below the threshold (`11·1 ≤ 0·20` fails, i.e. 0 < 11/20). -/
theorem c1_counterexample :
    (¬ (∀ e ∈ PerformDiff 11 20 ("1\n2\n3\n\na\nb\nc".data) ("a\nb\nd\n\n1\n2\n3".data),
        (e.type = DiffType.modified ∨ e.type = DiffType.moved) →
        11 * e.similarity.2 ≤ e.similarity.1 * 20)) ∧
      simQ (0, 1) < 11 / 20 := by
  constructor
  · decide
  · norm_num [simQ]

/-- **C1 (amended).** Every Modified entry returned by `PerformDiff` carries a
similarity ≥ the threshold `tNum/tDen`; every Moved entry carries either a
similarity ≥ the threshold (Moved entries arising from semantic gap pairs) or
the zero default `(0, 1)` (Moved entries arising from re-located megablocks,
which never receive a score). -/
theorem c1_threshold_amended (tNum tDen : Nat) (a b : List Char) (htd : 0 < tDen)
    (e : DiffEntry) (he : e ∈ PerformDiff tNum tDen a b) :
    (e.type = DiffType.modified →
      (tNum : ℚ) / (tDen : ℚ) ≤ simQ e.similarity) ∧
    (e.type = DiffType.moved →
      (tNum : ℚ) / (tDen : ℚ) ≤ simQ e.similarity ∨ e.similarity = (0, 1)) := by
  have crossQ : ∀ num den : Nat, 0 < den → tNum * den ≤ num * tDen →
      (tNum : ℚ) / (tDen : ℚ) ≤ (num : ℚ) / (den : ℚ) := by
    intro num den hden hc
    rw [div_le_div_iff₀ (by exact_mod_cast htd) (by exact_mod_cast hden)]
    exact_mod_cast hc
  simp only [PerformDiff] at he
  rw [List.mem_insertionSort] at he
  rcases List.mem_append.mp he with he1 | he1
  rcases List.mem_append.mp he1 with he2 | he2
  · rcases lisStage_shape _ e he2 with ⟨e', he', hshape⟩
    rcases List.mem_append.mp he' with hm | hm
    · have hP := megaLoop_entries
        (fun x => x.type = DiffType.unchanged ∧ x.similarity = (0, 1))
        (fun _ _ _ _ _ _ => ⟨rfl, rfl⟩) _ _ _ [] 0 (by intro x hx; exact absurd hx (by simp))
        e' hm
      rcases hshape with rfl | rfl
      · exact ⟨fun hc => absurd (hP.1.symm.trans hc) (by decide),
          fun hc => absurd (hP.1.symm.trans hc) (by decide)⟩
      · exact ⟨fun hc => absurd hc (by simp), fun _ => Or.inr hP.2⟩
    · have hQ := semStage_entries tNum tDen _ _ e' hm
      rcases hshape with rfl | rfl
      · exact ⟨fun _ => crossQ _ _ hQ.2.2 hQ.2.1, fun _ => Or.inl (crossQ _ _ hQ.2.2 hQ.2.1)⟩
      · exact ⟨fun hc => absurd hc (by simp), fun _ => Or.inl (crossQ _ _ hQ.2.2 hQ.2.1)⟩
  · unfold mkDeleted at he2
    rcases List.mem_map.mp he2 with ⟨blk, _, rfl⟩
    exact ⟨fun hc => absurd hc (by simp), fun hc => absurd hc (by simp)⟩
  · unfold mkAdded at he1
    rcases List.mem_map.mp he1 with ⟨blk, _, rfl⟩
    exact ⟨fun hc => absurd hc (by simp), fun hc => absurd hc (by simp)⟩

set_option maxHeartbeats 2000000 in
/-- **C1 (amended) witness**: the amended threshold property evaluated on the
concrete Modified entry of the counterexample input. -/
theorem c1_threshold_amended_witness :
    c1ex ∈ PerformDiff 11 20 ("1\n2\n3\n\na\nb\nc".data) ("a\nb\nd\n\n1\n2\n3".data) ∧
      c1ex.type = DiffType.modified ∧
      (11 : ℚ) / (20 : ℚ) ≤ simQ c1ex.similarity :=
  ⟨by decide, by decide,
    (c1_threshold_amended 11 20 ("1\n2\n3\n\na\nb\nc".data) ("a\nb\nd\n\n1\n2\n3".data)
      (by decide) c1ex (by decide)).1 (by decide)⟩

/-- **C2 counterexample.** `PerformDiff` on the equal one-line inputs
`"x"`/`"x"` returns an Added and a Deleted entry, not only Unchanged entries:
a single identical line is below `MinMegaBlockLength`, and a one-line gap
paragraph is below `MinParagraphLinesForSemanticMatch`, so the identical
content is reported as deleted-and-added. -/
theorem c2_counterexample :
    ¬ (∀ e ∈ PerformDiff 11 20 ("x".data) ("x".data), e.type = DiffType.unchanged) := by
  decide

/-- **C2 (amended).** If the two inputs are equal *and have at least
`MinMegaBlockLength` (3) lines*, every entry returned by `PerformDiff` is
Unchanged (for shorter identical inputs the output may contain Added/Deleted
entries, as the counterexample shows); if input A is the empty string every
entry is Added; if input B is the empty string every entry is Deleted. -/
theorem c2_empties_amended (tNum tDen : Nat) (a b : List Char) :
    (a = b → MinMegaBlockLength ≤ (getLinesWithInfo a "A").length →
      ∀ e ∈ PerformDiff tNum tDen a b, e.type = DiffType.unchanged) ∧
    (a = [] → ∀ e ∈ PerformDiff tNum tDen a b, e.type = DiffType.added) ∧
    (b = [] → ∀ e ∈ PerformDiff tNum tDen a b, e.type = DiffType.deleted) := by
  refine ⟨?_, ?_, ?_⟩
  · intro hab hlen
    subst hab
    exact performDiff_self tNum tDen a hlen
  · intro ha
    subst ha
    exact performDiff_emptyA tNum tDen b
  · intro hb
    subst hb
    exact performDiff_emptyB tNum tDen a

/-- **C2 (amended) witness**: the three amended conclusions evaluated at
concrete inputs. -/
theorem c2_empties_amended_witness :
    ((PerformDiff 11 20 ("a\nb\nc".data) ("a\nb\nc".data)).all fun e =>
      decide (e.type = DiffType.unchanged)) = true ∧
    ((PerformDiff 11 20 [] ("x".data)).all fun e =>
      decide (e.type = DiffType.added)) = true ∧
    ((PerformDiff 11 20 ("x".data) []).all fun e =>
      decide (e.type = DiffType.deleted)) = true := by
  refine ⟨?_, ?_, ?_⟩
  · exact List.all_eq_true.mpr fun e hme => by
      have h := (c2_empties_amended 11 20 ("a\nb\nc".data) ("a\nb\nc".data)).1 rfl
        (by decide) e hme
      simp [h]
  · exact List.all_eq_true.mpr fun e hme => by
      have h := (c2_empties_amended 11 20 [] ("x".data)).2.1 rfl e hme
      simp [h]
  · exact List.all_eq_true.mpr fun e hme => by
      have h := (c2_empties_amended 11 20 ("x".data) []).2.2 rfl e hme
      simp [h]

/-! ### C6: characterization of the greedy megablock scan -/

theorem mem_megaPairs (A B : List LineInfo) (p : Nat × Nat) :
    p ∈ megaPairs A B ↔ p.1 < A.length ∧ p.2 < B.length := by
  unfold megaPairs
  constructor
  · intro h
    rcases List.mem_flatMap.mp h with ⟨i, hi, hmem⟩
    rcases List.mem_map.mp hmem with ⟨j, hj, rfl⟩
    exact ⟨List.mem_range.mp hi, List.mem_range.mp hj⟩
  · intro h
    refine List.mem_flatMap.mpr ⟨p.1, List.mem_range.mpr h.1, ?_⟩
    exact List.mem_map.mpr ⟨p.2, List.mem_range.mpr h.2, rfl⟩

theorem flatMap_pairs_pairwise (ns ms : List Nat) (hns : ns.Pairwise (· < ·))
    (hms : ms.Pairwise (· < ·)) :
    (ns.flatMap fun i => ms.map fun j => (i, j)).Pairwise pairLexLt := by
  induction ns with
  | nil => simp
  | cons n rest ih =>
    rw [List.flatMap_cons, List.pairwise_append]
    rcases List.pairwise_cons.mp hns with ⟨hn, hrest⟩
    refine ⟨?_, ih hrest, ?_⟩
    · rw [List.pairwise_map]
      exact hms.imp fun h => Or.inr ⟨rfl, h⟩
    · intro a ha b hb
      rcases List.mem_map.mp ha with ⟨j, _, rfl⟩
      rcases List.mem_flatMap.mp hb with ⟨i, hi, hmem⟩
      rcases List.mem_map.mp hmem with ⟨j2, _, rfl⟩
      exact Or.inl (hn i hi)

theorem megaPairs_pairwise (A B : List LineInfo) : (megaPairs A B).Pairwise pairLexLt :=
  flatMap_pairs_pairwise _ _ (List.pairwise_lt_range _) (List.pairwise_lt_range _)

theorem runLen_unfold (A B : List LineInfo) (i j : Nat) (hi : i < A.length)
    (hj : j < B.length) :
    runLen A B i j =
      if (A.getD i default).isPartOfMega = false ∧ (B.getD j default).isPartOfMega = false ∧
          (A.getD i default).checksum = (B.getD j default).checksum then
        runLenL (A.drop (i + 1)) (B.drop (j + 1)) + 1
      else 0 := by
  unfold runLen
  rw [List.drop_eq_getElem_cons hi, List.drop_eq_getElem_cons hj,
    List.getD_eq_getElem A default hi, List.getD_eq_getElem B default hj]
  rfl

theorem megaStep_cases (A B : List LineInfo) (st : Nat × Nat × Nat) (q : Nat × Nat)
    (hq1 : q.1 < A.length) (hq2 : q.2 < B.length) :
    (megaStep A B st q = st ∧ runLen A B q.1 q.2 ≤ st.1) ∨
    (megaStep A B st q = (runLen A B q.1 q.2, q.1, q.2) ∧ st.1 < runLen A B q.1 q.2) := by
  unfold megaStep
  by_cases h1 : (A.getD q.1 default).isPartOfMega
  · rw [if_pos h1]
    refine Or.inl ⟨rfl, ?_⟩
    rw [runLen_unfold A B q.1 q.2 hq1 hq2,
      if_neg (fun hcon => absurd hcon.1 (by rw [h1]; decide))]
    omega
  · rw [if_neg h1]
    by_cases h2 : (B.getD q.2 default).isPartOfMega
    · rw [if_pos h2]
      refine Or.inl ⟨rfl, ?_⟩
      rw [runLen_unfold A B q.1 q.2 hq1 hq2,
        if_neg (fun hcon => absurd hcon.2.1 (by rw [h2]; decide))]
      omega
    · rw [if_neg h2]
      by_cases h3 : (A.getD q.1 default).checksum = (B.getD q.2 default).checksum
      · rw [if_pos h3]
        by_cases h4 : st.1 < runLen A B q.1 q.2
        · rw [if_pos h4]; exact Or.inr ⟨rfl, h4⟩
        · rw [if_neg h4]; exact Or.inl ⟨rfl, by omega⟩
      · rw [if_neg h3]
        refine Or.inl ⟨rfl, ?_⟩
        rw [runLen_unfold A B q.1 q.2 hq1 hq2, if_neg (by tauto)]
        omega

theorem megaFold_invariant (A B : List LineInfo) :
    ∀ (qs done : List (Nat × Nat)) (st : Nat × Nat × Nat),
    (∀ p ∈ done, runLen A B p.1 p.2 ≤ st.1) →
    (st.1 = 0 ∨ (0 < st.1 ∧ runLen A B st.2.1 st.2.2 = st.1 ∧ (st.2.1, st.2.2) ∈ done ∧
      (∀ p ∈ done, runLen A B p.1 p.2 = st.1 →
        st.2.1 < p.1 ∨ (st.2.1 = p.1 ∧ st.2.2 ≤ p.2)))) →
    (∀ p ∈ done, ∀ q ∈ qs, pairLexLt p q) →
    qs.Pairwise pairLexLt →
    (∀ q ∈ qs, q.1 < A.length ∧ q.2 < B.length) →
    ((∀ p ∈ done ++ qs, runLen A B p.1 p.2 ≤ (qs.foldl (megaStep A B) st).1) ∧
      ((qs.foldl (megaStep A B) st).1 = 0 ∨
        (0 < (qs.foldl (megaStep A B) st).1 ∧
          runLen A B (qs.foldl (megaStep A B) st).2.1 (qs.foldl (megaStep A B) st).2.2
            = (qs.foldl (megaStep A B) st).1 ∧
          ((qs.foldl (megaStep A B) st).2.1, (qs.foldl (megaStep A B) st).2.2) ∈ done ++ qs ∧
          (∀ p ∈ done ++ qs, runLen A B p.1 p.2 = (qs.foldl (megaStep A B) st).1 →
            (qs.foldl (megaStep A B) st).2.1 < p.1 ∨
              ((qs.foldl (megaStep A B) st).2.1 = p.1 ∧
                (qs.foldl (megaStep A B) st).2.2 ≤ p.2))))) := by
  intro qs
  induction qs with
  | nil =>
    intro done st h1 h2 _ _ _
    rw [List.foldl_nil, List.append_nil]
    exact ⟨h1, h2⟩
  | cons q rest ih =>
    intro done st h1 h2 hord hpw hbounds
    rw [List.foldl_cons]
    have hb := hbounds q (by simp)
    have hord' : ∀ p ∈ done ++ [q], ∀ r ∈ rest, pairLexLt p r := by
      intro p hp r hr
      rcases List.mem_append.mp hp with hp | hp
      · exact hord p hp r (by simp [hr])
      · rw [List.mem_singleton] at hp; subst hp
        exact (List.pairwise_cons.mp hpw).1 r hr
    have hbounds' : ∀ r ∈ rest, r.1 < A.length ∧ r.2 < B.length :=
      fun r hr => hbounds r (by simp [hr])
    have hpw' := (List.pairwise_cons.mp hpw).2
    rcases megaStep_cases A B st q hb.1 hb.2 with ⟨heq, hle⟩ | ⟨heq, hlt⟩
    · rw [heq]
      have h1' : ∀ p ∈ done ++ [q], runLen A B p.1 p.2 ≤ st.1 := by
        intro p hp
        rcases List.mem_append.mp hp with hp | hp
        · exact h1 p hp
        · rw [List.mem_singleton] at hp; subst hp; exact hle
      have h2' : st.1 = 0 ∨ (0 < st.1 ∧ runLen A B st.2.1 st.2.2 = st.1 ∧
          (st.2.1, st.2.2) ∈ done ++ [q] ∧
          (∀ p ∈ done ++ [q], runLen A B p.1 p.2 = st.1 →
            st.2.1 < p.1 ∨ (st.2.1 = p.1 ∧ st.2.2 ≤ p.2))) := by
        rcases h2 with h2 | ⟨hpos, hrun, hmem, htie⟩
        · exact Or.inl h2
        · refine Or.inr ⟨hpos, hrun, List.mem_append_left _ hmem, ?_⟩
          intro p hp hrp
          rcases List.mem_append.mp hp with hp | hp
          · exact htie p hp hrp
          · rw [List.mem_singleton] at hp; subst hp
            have hq := hord _ hmem p (by simp)
            unfold pairLexLt at hq
            omega
      have := ih (done ++ [q]) st h1' h2' hord' hpw' hbounds'
      simpa [List.append_assoc] using this
    · rw [heq]
      have h1' : ∀ p ∈ done ++ [q], runLen A B p.1 p.2 ≤ runLen A B q.1 q.2 := by
        intro p hp
        rcases List.mem_append.mp hp with hp | hp
        · have := h1 p hp
          omega
        · rw [List.mem_singleton] at hp; subst hp
          exact le_rfl
      have h2' : runLen A B q.1 q.2 = 0 ∨
          (0 < runLen A B q.1 q.2 ∧ runLen A B q.1 q.2 = runLen A B q.1 q.2 ∧
            (q.1, q.2) ∈ done ++ [q] ∧
            (∀ p ∈ done ++ [q], runLen A B p.1 p.2 = runLen A B q.1 q.2 →
              q.1 < p.1 ∨ (q.1 = p.1 ∧ q.2 ≤ p.2))) := by
        refine Or.inr ⟨by omega, rfl, ?_, ?_⟩
        · exact List.mem_append_right _ (by simp)
        · intro p hp hrp
          rcases List.mem_append.mp hp with hp | hp
          · have := h1 p hp
            omega
          · rw [List.mem_singleton] at hp; subst hp
            omega
      have := ih (done ++ [q]) (runLen A B q.1 q.2, q.1, q.2) h1' h2' hord' hpw' hbounds'
      simpa [List.append_assoc] using this

/-- **C6.** `findNextGreedyMegaMatch` reports `found` (here: returns `some`)
exactly when some run of consecutive unconsumed checksum-equal line pairs has
length ≥ `MinMegaBlockLength` (= 3), and in that case the returned triple is a
run of maximal length among all such runs, with ties broken by the smallest
A index and then the smallest B index. -/
theorem c6_greedy_mega_spec (A B : List LineInfo) :
    (∀ aS bS len, findNextGreedyMegaMatch A B = some (aS, bS, len) →
      MinMegaBlockLength ≤ len ∧ runLen A B aS bS = len ∧
      (∀ i j, i < A.length → j < B.length → runLen A B i j ≤ len) ∧
      (∀ i j, i < A.length → j < B.length → runLen A B i j = len →
        aS < i ∨ (aS = i ∧ bS ≤ j))) ∧
    (findNextGreedyMegaMatch A B = none ↔
      ∀ i j, i < A.length → j < B.length → runLen A B i j < MinMegaBlockLength) := by
  have hinv := megaFold_invariant A B (megaPairs A B) [] (0, 0, 0) (by simp) (Or.inl rfl)
    (by simp) (megaPairs_pairwise A B) (fun q hq => (mem_megaPairs A B q).mp hq)
  rw [List.nil_append] at hinv
  have hF : findNextGreedyMegaMatch A B =
      if MinMegaBlockLength ≤ ((megaPairs A B).foldl (megaStep A B) (0, 0, 0)).1 then
        some (((megaPairs A B).foldl (megaStep A B) (0, 0, 0)).2.1,
          ((megaPairs A B).foldl (megaStep A B) (0, 0, 0)).2.2,
          ((megaPairs A B).foldl (megaStep A B) (0, 0, 0)).1)
      else none := rfl
  constructor
  · intro aS bS len hsome
    rw [hF] at hsome
    by_cases h3 : MinMegaBlockLength ≤ ((megaPairs A B).foldl (megaStep A B) (0, 0, 0)).1
    · rw [if_pos h3] at hsome
      injection hsome with hsome
      have e1 : ((megaPairs A B).foldl (megaStep A B) (0, 0, 0)).2.1 = aS :=
        congrArg Prod.fst hsome
      have e23 := congrArg Prod.snd hsome
      have e2 : ((megaPairs A B).foldl (megaStep A B) (0, 0, 0)).2.2 = bS :=
        congrArg Prod.fst e23
      have e3 : ((megaPairs A B).foldl (megaStep A B) (0, 0, 0)).1 = len :=
        congrArg Prod.snd e23
      rcases hinv.2 with hz | ⟨hpos, hrun, _, htie⟩
      · exfalso
        have : MinMegaBlockLength ≤ (0 : Nat) := by rw [hz] at h3; exact h3
        have h30 : (3 : Nat) ≤ 0 := this
        omega
      · refine ⟨by rw [← e3]; exact h3, by rw [← e1, ← e2, ← e3]; exact hrun, ?_, ?_⟩
        · intro i j hi hj
          have hle : runLen A B i j ≤ ((megaPairs A B).foldl (megaStep A B) (0, 0, 0)).1 :=
            hinv.1 (i, j) ((mem_megaPairs A B (i, j)).mpr ⟨hi, hj⟩)
          omega
        · intro i j hi hj hrl
          have := htie (i, j) ((mem_megaPairs A B (i, j)).mpr ⟨hi, hj⟩)
            (show runLen A B i j = _ by omega)
          rw [e1, e2] at this
          exact this
    · rw [if_neg h3] at hsome
      exact Option.noConfusion hsome
  · constructor
    · intro hnone i j hi hj
      rw [hF] at hnone
      by_cases h3 : MinMegaBlockLength ≤ ((megaPairs A B).foldl (megaStep A B) (0, 0, 0)).1
      · rw [if_pos h3] at hnone
        exact Option.noConfusion hnone
      · have hle : runLen A B i j ≤ ((megaPairs A B).foldl (megaStep A B) (0, 0, 0)).1 :=
          hinv.1 (i, j) ((mem_megaPairs A B (i, j)).mpr ⟨hi, hj⟩)
        have h3' : ¬ (3 : Nat) ≤ ((megaPairs A B).foldl (megaStep A B) (0, 0, 0)).1 := h3
        have hg : (3 : Nat) = MinMegaBlockLength := rfl
        rw [← hg]
        omega
    · intro hall
      rw [hF]
      rw [if_neg ?hcond]
      case hcond =>
        intro h3
        rcases hinv.2 with hz | ⟨hpos, hrun, hmem, _⟩
        · have h30 : (3 : Nat) ≤ ((megaPairs A B).foldl (megaStep A B) (0, 0, 0)).1 := h3
          omega
        · have hb := (mem_megaPairs A B _).mp hmem
          have := hall _ _ hb.1 hb.2
          have h30 : (3 : Nat) ≤ ((megaPairs A B).foldl (megaStep A B) (0, 0, 0)).1 := h3
          have hlt : runLen A B ((megaPairs A B).foldl (megaStep A B) (0, 0, 0)).2.1
              ((megaPairs A B).foldl (megaStep A B) (0, 0, 0)).2.2 < 3 := this
          omega

/-- **C6 witness**: the characterization evaluated on a concrete pair of
three-line files, instantiating the bound and the tie-break at `(1, 1)`. -/
theorem c6_greedy_mega_spec_witness :
    findNextGreedyMegaMatch c6linesA c6linesB = some (0, 0, 3) ∧
      MinMegaBlockLength ≤ 3 ∧ runLen c6linesA c6linesB 0 0 = 3 ∧
      runLen c6linesA c6linesB 1 1 ≤ 3 ∧
      (findNextGreedyMegaMatch (markConsumed c6linesA 0 3) c6linesB = none →
        runLen (markConsumed c6linesA 0 3) c6linesB 0 0 < MinMegaBlockLength) := by
  have h := c6_greedy_mega_spec c6linesA c6linesB
  have hsome : findNextGreedyMegaMatch c6linesA c6linesB = some (0, 0, 3) := by decide
  have hmain := h.1 0 0 3 hsome
  refine ⟨hsome, hmain.1, hmain.2.1, hmain.2.2.1 1 1 (by decide) (by decide), ?_⟩
  intro hnone
  exact ((c6_greedy_mega_spec (markConsumed c6linesA 0 3) c6linesB).2.mp hnone) 0 0
    (by decide) (by decide)

/-! ### C5: LIS monotonicity -/

theorem getD_set_same {α : Type} (l : List α) (x : Nat) (v d : α) (hx : x < l.length) :
    (l.set x v).getD x d = v := by
  rw [List.getD_eq_getElem?_getD, List.getElem?_set]
  simp [hx]

theorem getD_set_other {α : Type} (l : List α) (x i : Nat) (v d : α) (h : x ≠ i) :
    (l.set x v).getD i d = l.getD i d := by
  rw [List.getD_eq_getElem?_getD, List.getElem?_set_ne h, ← List.getD_eq_getElem?_getD]

theorem goodChain_preserve (preds : List (Option Nat)) (bs : List Nat) (x : Nat)
    (v : Option Nat) :
    ∀ (d i : Nat), i < x → goodChain preds bs i d → goodChain (preds.set x v) bs i d := by
  intro d
  induction d with
  | zero => intro i _ _; trivial
  | succ d ih =>
    intro i hix hc
    obtain ⟨p, hp, hpi, hbs, hrec⟩ := hc
    exact ⟨p, by rw [getD_set_other _ _ _ _ _ (by omega)]; exact hp, hpi, hbs,
      ih p (by omega) hrec⟩

theorem lisRecon_chain (preds : List (Option Nat)) (bs : List Nat) :
    ∀ (d i : Nat), goodChain preds bs i d →
    ((lisRecon preds d i).Pairwise fun x y => x < y ∧ bs.getD x 0 < bs.getD y 0) ∧
    (∀ x ∈ lisRecon preds d i, x ≤ i ∧ bs.getD x 0 ≤ bs.getD i 0) := by
  intro d
  induction d with
  | zero =>
    intro i _
    constructor
    · exact List.pairwise_singleton _ _
    · intro x hx
      simp only [lisRecon, List.mem_singleton] at hx
      subst hx
      exact ⟨le_rfl, le_rfl⟩
  | succ d ih =>
    intro i hc
    obtain ⟨p, hp, hpi, hbs, hrec⟩ := hc
    have hrecon : lisRecon preds (d + 1) i = lisRecon preds d p ++ [i] := by
      simp only [lisRecon, hp]
    obtain ⟨ihp, ihm⟩ := ih p hrec
    rw [hrecon]
    constructor
    · rw [List.pairwise_append]
      refine ⟨ihp, List.pairwise_singleton _ _, ?_⟩
      intro x hx y hy
      rw [List.mem_singleton] at hy
      subst hy
      obtain ⟨hx1, hx2⟩ := ihm x hx
      exact ⟨by omega, by omega⟩
    · intro x hx
      rcases List.mem_append.mp hx with hx | hx
      · obtain ⟨hx1, hx2⟩ := ihm x hx
        exact ⟨by omega, by omega⟩
      · rw [List.mem_singleton] at hx
        subst hx
        exact ⟨le_rfl, le_rfl⟩

theorem searchGE_first (tails : List Nat) (v : Nat) :
    ∀ m, m < searchGE tails v → tails.getD m 0 < v := by
  intro m hm
  have hmlen : m < tails.length := lt_of_lt_of_le hm (List.findIdx_le_length _)
  have hfal := @List.not_of_lt_findIdx Nat (fun t => decide (v ≤ t)) tails m hm
  rw [List.getD_eq_getElem _ _ hmlen]
  simp only [decide_eq_false_iff_not, not_le] at hfal
  exact hfal

theorem lisFold_invariant (bs : List Nat) :
    ∀ (todo : List (Nat × Nat)) (k : Nat) (tails tidx : List Nat)
      (preds : List (Option Nat)),
    (∀ m, m < todo.length → todo.getD m (0, 0) = (k + m, bs.getD (k + m) 0)) →
    k + todo.length ≤ bs.length →
    tails.length = tidx.length →
    (∀ m, m < tidx.length → tidx.getD m 0 < k) →
    (∀ m, m < tails.length → bs.getD (tidx.getD m 0) 0 = tails.getD m 0) →
    (∀ m, m < tails.length → goodChain preds bs (tidx.getD m 0) m) →
    (∀ i, k ≤ i → preds.getD i none = none) →
    preds.length = bs.length →
    ((todo.foldl lisStep (tails, tidx, preds)).1.length
        = (todo.foldl lisStep (tails, tidx, preds)).2.1.length ∧
      (∀ m, m < (todo.foldl lisStep (tails, tidx, preds)).2.1.length →
        (todo.foldl lisStep (tails, tidx, preds)).2.1.getD m 0 < k + todo.length) ∧
      (∀ m, m < (todo.foldl lisStep (tails, tidx, preds)).1.length →
        bs.getD ((todo.foldl lisStep (tails, tidx, preds)).2.1.getD m 0) 0
          = (todo.foldl lisStep (tails, tidx, preds)).1.getD m 0) ∧
      (∀ m, m < (todo.foldl lisStep (tails, tidx, preds)).1.length →
        goodChain (todo.foldl lisStep (tails, tidx, preds)).2.2 bs
          ((todo.foldl lisStep (tails, tidx, preds)).2.1.getD m 0) m)) := by
  intro todo
  induction todo with
  | nil =>
    intro k tails tidx preds _ _ h3 h4 h5 h6 _ _
    rw [List.foldl_nil]
    exact ⟨h3, fun m hm => by have := h4 m hm; simp only [List.length_nil]; omega, h5, h6⟩
  | cons t rest ih =>
    intro k tails tidx preds htodo hlen h3 h4 h5 h6 h7 h8
    have ht0 : t = (k, bs.getD k 0) := by
      have := htodo 0 (by simp)
      simpa using this
    subst ht0
    rw [List.foldl_cons]
    have hkbs : k < bs.length := by
      simp only [List.length_cons] at hlen
      omega
    have hrest : ∀ m, m < rest.length →
        rest.getD m (0, 0) = (k + 1 + m, bs.getD (k + 1 + m) 0) := by
      intro m hm
      have := htodo (m + 1) (by simp only [List.length_cons]; omega)
      rw [List.getD_cons_succ] at this
      rw [this, show k + (m + 1) = k + 1 + m from by omega]
    have hrlen : k + 1 + rest.length ≤ bs.length := by
      simp only [List.length_cons] at hlen
      omega
    have hfirst := searchGE_first tails (bs.getD k 0)
    have hjle : searchGE tails (bs.getD k 0) ≤ tails.length := List.findIdx_le_length _
    by_cases hcase : searchGE tails (bs.getD k 0) = tails.length
    · have hstep : lisStep (tails, tidx, preds) (k, bs.getD k 0) =
          (tails ++ [bs.getD k 0], tidx ++ [k],
            if 0 < searchGE tails (bs.getD k 0) then
              preds.set k (some ((tidx ++ [k]).getD (searchGE tails (bs.getD k 0) - 1) 0))
            else preds) := by
        simp only [lisStep]
        rw [if_pos hcase, if_pos hcase]
      rw [hstep]
      have hchainpres : ∀ m i, i < k → goodChain preds bs i m →
          goodChain (if 0 < searchGE tails (bs.getD k 0) then
              preds.set k (some ((tidx ++ [k]).getD (searchGE tails (bs.getD k 0) - 1) 0))
            else preds) bs i m := by
        intro m i hi hc
        by_cases h0 : 0 < searchGE tails (bs.getD k 0)
        · rw [if_pos h0]
          exact goodChain_preserve preds bs k _ m i hi hc
        · rw [if_neg h0]
          exact hc
      have hlen' : (tails ++ [bs.getD k 0]).length = (tidx ++ [k]).length := by
        simp [h3]
      have hlt' : ∀ m, m < (tidx ++ [k]).length → (tidx ++ [k]).getD m 0 < k + 1 := by
        intro m hm
        by_cases hmt : m < tidx.length
        · rw [List.getD_append _ _ _ _ hmt]
          have := h4 m hmt
          omega
        · have hme : m = tidx.length := by
            simp only [List.length_append, List.length_singleton] at hm
            omega
          subst hme
          rw [List.getD_append_right _ _ _ _ le_rfl]
          simp
      have hval' : ∀ m, m < (tails ++ [bs.getD k 0]).length →
          bs.getD ((tidx ++ [k]).getD m 0) 0 = (tails ++ [bs.getD k 0]).getD m 0 := by
        intro m hm
        by_cases hmt : m < tails.length
        · rw [List.getD_append tails [bs.getD k 0] 0 m hmt,
            List.getD_append tidx [k] 0 m (h3 ▸ hmt)]
          exact h5 m hmt
        · have hme : m = tails.length := by
            simp only [List.length_append, List.length_singleton] at hm
            omega
          subst hme
          rw [List.getD_append_right _ _ _ _ le_rfl,
            List.getD_append_right _ _ _ _ (by omega)]
          simp [h3]
      have hchain' : ∀ m, m < (tails ++ [bs.getD k 0]).length →
          goodChain (if 0 < searchGE tails (bs.getD k 0) then
              preds.set k (some ((tidx ++ [k]).getD (searchGE tails (bs.getD k 0) - 1) 0))
            else preds) bs ((tidx ++ [k]).getD m 0) m := by
        intro m hm
        by_cases hmt : m < tails.length
        · rw [List.getD_append tidx [k] 0 m (h3 ▸ hmt)]
          exact hchainpres m _ (h4 m (h3 ▸ hmt)) (h6 m hmt)
        · have hme : m = tails.length := by
            simp only [List.length_append, List.length_singleton] at hm
            omega
          subst hme
          rw [List.getD_append_right _ _ _ _ (le_of_eq h3.symm)]
          rw [h3, Nat.sub_self]
          simp only [List.getD_cons_zero]
          cases hT : tidx.length with
          | zero => trivial
          | succ len' =>
            have h0 : 0 < searchGE tails (bs.getD k 0) := by omega
            rw [if_pos h0]
            have hj1 : searchGE tails (bs.getD k 0) - 1 = len' := by omega
            have hp' : (tidx ++ [k]).getD (searchGE tails (bs.getD k 0) - 1) 0
                = tidx.getD len' 0 := by
              rw [hj1, List.getD_append _ _ _ _ (by omega)]
            refine ⟨tidx.getD len' 0, ?_, ?_, ?_, ?_⟩
            · rw [hp', getD_set_same _ _ _ _ (by omega)]
            · exact h4 len' (by omega)
            · rw [h5 len' (by omega)]
              exact hfirst len' (by omega)
            · rw [hp']
              exact goodChain_preserve preds bs k _ len' _ (h4 len' (by omega))
                (h6 len' (by omega))
      have hp2none : ∀ i, k + 1 ≤ i →
          (if 0 < searchGE tails (bs.getD k 0) then
              preds.set k (some ((tidx ++ [k]).getD (searchGE tails (bs.getD k 0) - 1) 0))
            else preds).getD i none = none := by
        intro i hi
        by_cases h0 : 0 < searchGE tails (bs.getD k 0)
        · rw [if_pos h0, getD_set_other _ _ _ _ _ (by omega)]
          exact h7 i (by omega)
        · rw [if_neg h0]
          exact h7 i (by omega)
      have hp2len : (if 0 < searchGE tails (bs.getD k 0) then
              preds.set k (some ((tidx ++ [k]).getD (searchGE tails (bs.getD k 0) - 1) 0))
            else preds).length = bs.length := by
        by_cases h0 : 0 < searchGE tails (bs.getD k 0)
        · rw [if_pos h0, List.length_set]
          exact h8
        · rw [if_neg h0]
          exact h8
      obtain ⟨c1, c2, c3, c4⟩ := ih (k + 1) (tails ++ [bs.getD k 0]) (tidx ++ [k]) _
        hrest hrlen hlen' hlt' hval' hchain' hp2none hp2len
      refine ⟨c1, fun m hm => ?_, c3, c4⟩
      have := c2 m hm
      simp only [List.length_cons]
      omega
    · have hjlt : searchGE tails (bs.getD k 0) < tails.length := by omega
      have hstep : lisStep (tails, tidx, preds) (k, bs.getD k 0) =
          (tails.set (searchGE tails (bs.getD k 0)) (bs.getD k 0),
            tidx.set (searchGE tails (bs.getD k 0)) k,
            if 0 < searchGE tails (bs.getD k 0) then
              preds.set k (some ((tidx.set (searchGE tails (bs.getD k 0)) k).getD
                (searchGE tails (bs.getD k 0) - 1) 0))
            else preds) := by
        simp only [lisStep]
        rw [if_neg hcase, if_neg hcase]
      rw [hstep]
      have hchainpres : ∀ m i, i < k → goodChain preds bs i m →
          goodChain (if 0 < searchGE tails (bs.getD k 0) then
              preds.set k (some ((tidx.set (searchGE tails (bs.getD k 0)) k).getD
                (searchGE tails (bs.getD k 0) - 1) 0))
            else preds) bs i m := by
        intro m i hi hc
        by_cases h0 : 0 < searchGE tails (bs.getD k 0)
        · rw [if_pos h0]
          exact goodChain_preserve preds bs k _ m i hi hc
        · rw [if_neg h0]
          exact hc
      have hlen' : (tails.set (searchGE tails (bs.getD k 0)) (bs.getD k 0)).length
          = (tidx.set (searchGE tails (bs.getD k 0)) k).length := by
        simp [h3]
      have hlt' : ∀ m, m < (tidx.set (searchGE tails (bs.getD k 0)) k).length →
          (tidx.set (searchGE tails (bs.getD k 0)) k).getD m 0 < k + 1 := by
        intro m hm
        rw [List.length_set] at hm
        by_cases hmj : m = searchGE tails (bs.getD k 0)
        · subst hmj
          rw [getD_set_same _ _ _ _ hm]
          omega
        · rw [getD_set_other _ _ _ _ _ (fun hh => hmj hh.symm)]
          have := h4 m hm
          omega
      have hval' : ∀ m, m < (tails.set (searchGE tails (bs.getD k 0)) (bs.getD k 0)).length →
          bs.getD ((tidx.set (searchGE tails (bs.getD k 0)) k).getD m 0) 0
            = (tails.set (searchGE tails (bs.getD k 0)) (bs.getD k 0)).getD m 0 := by
        intro m hm
        rw [List.length_set] at hm
        by_cases hmj : m = searchGE tails (bs.getD k 0)
        · subst hmj
          rw [getD_set_same _ _ _ _ (h3 ▸ hjlt), getD_set_same _ _ _ _ hjlt]
        · rw [getD_set_other _ _ _ _ _ (fun hh => hmj hh.symm),
            getD_set_other _ _ _ _ _ (fun hh => hmj hh.symm)]
          exact h5 m hm
      have hchain' : ∀ m, m < (tails.set (searchGE tails (bs.getD k 0)) (bs.getD k 0)).length →
          goodChain (if 0 < searchGE tails (bs.getD k 0) then
              preds.set k (some ((tidx.set (searchGE tails (bs.getD k 0)) k).getD
                (searchGE tails (bs.getD k 0) - 1) 0))
            else preds) bs ((tidx.set (searchGE tails (bs.getD k 0)) k).getD m 0) m := by
        intro m hm
        rw [List.length_set] at hm
        by_cases hmj : m = searchGE tails (bs.getD k 0)
        · subst hmj
          rw [getD_set_same _ _ _ _ (h3 ▸ hjlt)]
          cases hJ : searchGE tails (bs.getD k 0) with
          | zero => trivial
          | succ j' =>
            rw [if_pos (Nat.succ_pos j')]
            have hp' : (tidx.set (j' + 1) k).getD (j' + 1 - 1) 0 = tidx.getD j' 0 := by
              rw [Nat.succ_sub_one, getD_set_other _ _ _ _ _ (by omega)]
            refine ⟨tidx.getD j' 0, ?_, ?_, ?_, ?_⟩
            · rw [hp', getD_set_same _ _ _ _ (by omega)]
            · exact h4 j' (by omega)
            · rw [h5 j' (by omega)]
              exact hfirst j' (by omega)
            · rw [hp']
              exact goodChain_preserve preds bs k _ j' _ (h4 j' (by omega))
                (h6 j' (by omega))
        · rw [getD_set_other _ _ _ _ _ (fun hh => hmj hh.symm)]
          exact hchainpres m _ (h4 m (by rw [← h3]; omega)) (h6 m (by omega))
      have hp2none : ∀ i, k + 1 ≤ i →
          (if 0 < searchGE tails (bs.getD k 0) then
              preds.set k (some ((tidx.set (searchGE tails (bs.getD k 0)) k).getD
                (searchGE tails (bs.getD k 0) - 1) 0))
            else preds).getD i none = none := by
        intro i hi
        by_cases h0 : 0 < searchGE tails (bs.getD k 0)
        · rw [if_pos h0, getD_set_other _ _ _ _ _ (by omega)]
          exact h7 i (by omega)
        · rw [if_neg h0]
          exact h7 i (by omega)
      have hp2len : (if 0 < searchGE tails (bs.getD k 0) then
              preds.set k (some ((tidx.set (searchGE tails (bs.getD k 0)) k).getD
                (searchGE tails (bs.getD k 0) - 1) 0))
            else preds).length = bs.length := by
        by_cases h0 : 0 < searchGE tails (bs.getD k 0)
        · rw [if_pos h0, List.length_set]
          exact h8
        · rw [if_neg h0]
          exact h8
      obtain ⟨c1, c2, c3, c4⟩ := ih (k + 1)
        (tails.set (searchGE tails (bs.getD k 0)) (bs.getD k 0))
        (tidx.set (searchGE tails (bs.getD k 0)) k) _
        hrest hrlen hlen' hlt' hval' hchain' hp2none hp2len
      refine ⟨c1, fun m hm => ?_, c3, c4⟩
      have := c2 m hm
      simp only [List.length_cons]
      omega

theorem findLISIndices_chain (pairs : List DiffEntry) :
    ((findLISIndices pairs).Pairwise fun x y => x < y ∧
      (pairs.map fun e => (e.blockB.map fun blk => blk.lineStart).getD 0).getD x 0 <
        (pairs.map fun e => (e.blockB.map fun blk => blk.lineStart).getD 0).getD y 0) ∧
    (∀ x ∈ findLISIndices pairs, x < pairs.length) := by
  unfold findLISIndices
  by_cases h0 : pairs.length = 0
  · rw [if_pos h0]
    exact ⟨List.Pairwise.nil, by simp⟩
  · rw [if_neg h0]
    by_cases hall : pairs.all (fun e => e.blockB.isSome) = false
    · rw [if_pos hall]
      exact ⟨List.Pairwise.nil, by simp⟩
    · rw [if_neg hall]
      have hblen : (pairs.map fun e => (e.blockB.map fun blk => blk.lineStart).getD 0).length
          = pairs.length := List.length_map _ _
      have hinv := lisFold_invariant
        (pairs.map fun e => (e.blockB.map fun blk => blk.lineStart).getD 0)
        (pairs.map fun e => (e.blockB.map fun blk => blk.lineStart).getD 0).enum
        0 [] [] (List.replicate pairs.length none) ?htodo ?hlen rfl ?h4 ?h5 ?h6 ?h7 ?h8
      case htodo =>
        intro m hm
        rw [List.enum_length] at hm
        rw [List.getD_eq_getElem _ _ (by rw [List.enum_length]; exact hm),
          List.getElem_enum, Nat.zero_add, List.getD_eq_getElem _ _ hm]
      case hlen => simp [List.enum_length]
      case h4 => intro m hm; simp at hm
      case h5 => intro m hm; simp at hm
      case h6 => intro m hm; simp at hm
      case h7 =>
        intro i _
        rw [List.getD_eq_getElem?_getD, List.getElem?_replicate]
        split <;> rfl
      case h8 => simp [hblen]
      obtain ⟨c1, c2, c3, c4⟩ := hinv
      set F := ((pairs.map fun e => (e.blockB.map fun blk => blk.lineStart).getD 0).enum).foldl
          lisStep ([], [], List.replicate pairs.length none) with hFdef
      by_cases hT : F.1.length = 0
      · rw [if_pos hT]
        exact ⟨List.Pairwise.nil, by simp⟩
      · rw [if_neg hT]
        have hpos : 0 < F.1.length := Nat.pos_of_ne_zero hT
        have hchain := c4 (F.1.length - 1) (by omega)
        obtain ⟨hpw, hmem⟩ := lisRecon_chain F.2.2 _ _ _ hchain
        refine ⟨hpw, ?_⟩
        intro x hx
        have hx1 := (hmem x hx).1
        have hstart : F.2.1.getD (F.1.length - 1) 0 < pairs.length := by
          have hub := c2 (F.1.length - 1) (by omega)
          rw [List.enum_length, hblen] at hub
          omega
        omega

theorem pairwise_strict_mem {R : Nat → Nat → Prop} :
    ∀ (l : List Nat), (l.Pairwise fun a b => a < b ∧ R a b) →
    ∀ x y, x ∈ l → y ∈ l → x < y → R x y := by
  intro l hpw x y hx hy hxy
  obtain ⟨i, hi, hxe⟩ := List.mem_iff_getElem.mp hx
  obtain ⟨j, hj, hye⟩ := List.mem_iff_getElem.mp hy
  have hpg := List.pairwise_iff_getElem.mp hpw
  rcases lt_trichotomy i j with h | h | h
  · have := hpg i j hi hj h
    rw [hxe, hye] at this
    exact this.2
  · subst h
    rw [hxe] at hye
    omega
  · have := hpg j i hj hi h
    rw [hxe, hye] at this
    omega

theorem lisStage_mem_lis (pairs : List DiffEntry) (e : DiffEntry) (he : e ∈ lisStage pairs)
    (ht : e.type = DiffType.unchanged ∨ e.type = DiffType.modified) :
    ∃ (i : Nat) (hi : i < (List.insertionSort leA pairs).length),
      i ∈ findLISIndices (List.insertionSort leA pairs) ∧
      e = (List.insertionSort leA pairs)[i] := by
  unfold lisStage at he
  rcases List.mem_map.mp he with ⟨p, hp, hpe⟩
  have hmem := List.mem_enum hp
  by_cases hc : p.1 ∈ findLISIndices (List.insertionSort leA pairs)
  · rw [if_pos hc] at hpe
    exact ⟨p.1, hmem.1, hc, hpe ▸ hmem.2⟩
  · rw [if_neg hc] at hpe
    exfalso
    rcases ht with h | h <;> (rw [← hpe] at h; simp at h)

theorem lisStage_monotone (pairs : List DiffEntry) (e1 e2 : DiffEntry)
    (hm1 : e1 ∈ lisStage pairs) (hm2 : e2 ∈ lisStage pairs)
    (ht1 : e1.type = DiffType.unchanged ∨ e1.type = DiffType.modified)
    (ht2 : e2.type = DiffType.unchanged ∨ e2.type = DiffType.modified)
    (a1 b1 a2 b2 : ContentBlock)
    (hA1 : e1.blockA = some a1) (hB1 : e1.blockB = some b1)
    (hA2 : e2.blockA = some a2) (hB2 : e2.blockB = some b2)
    (hlt : a1.lineStart < a2.lineStart) :
    b1.lineStart < b2.lineStart := by
  obtain ⟨i1, hi1, hlis1, he1⟩ := lisStage_mem_lis pairs e1 hm1 ht1
  obtain ⟨i2, hi2, hlis2, he2⟩ := lisStage_mem_lis pairs e2 hm2 ht2
  have hk1 : aKey e1 = (a1.lineStart, a1.id) := by unfold aKey; rw [hA1]
  have hk2 : aKey e2 = (a2.lineStart, a2.id) := by unfold aKey; rw [hA2]
  have hsort := List.sorted_insertionSort leA pairs
  have hget := List.pairwise_iff_getElem.mp hsort
  have hidx : i1 < i2 := by
    rcases lt_trichotomy i1 i2 with h | h | h
    · exact h
    · exfalso
      subst h
      rw [← he1] at he2
      rw [he2] at hA2
      rw [hA1] at hA2
      injection hA2 with hA2
      rw [hA2] at hlt
      exact lt_irrefl _ hlt
    · exfalso
      have hr := hget i2 i1 hi2 hi1 h
      rw [← he1, ← he2] at hr
      unfold leA at hr
      rw [hk1, hk2] at hr
      simp only [] at hr
      omega
  have hchain := (findLISIndices_chain (List.insertionSort leA pairs)).1
  have hR := pairwise_strict_mem _ hchain i1 i2 hlis1 hlis2 hidx
  have hv1 : ((List.insertionSort leA pairs).map
      fun e => (e.blockB.map fun blk => blk.lineStart).getD 0).getD i1 0 = b1.lineStart := by
    rw [List.getD_eq_getElem _ _ (by rw [List.length_map]; exact hi1), List.getElem_map,
      ← he1, hB1]
    rfl
  have hv2 : ((List.insertionSort leA pairs).map
      fun e => (e.blockB.map fun blk => blk.lineStart).getD 0).getD i2 0 = b2.lineStart := by
    rw [List.getD_eq_getElem _ _ (by rw [List.length_map]; exact hi2), List.getElem_map,
      ← he2, hB2]
    rfl
  rw [hv1, hv2] at hR
  exact hR

/-- **C5.** Among entries returned by `PerformDiff` whose category is Unchanged
or Modified (the ones the LIS step retained), B-block start lines are strictly
monotone in A-block start lines: any such entry whose A block starts earlier
also has its B block starting earlier. -/
theorem c5_lis_monotonicity (tNum tDen : Nat) (a b : List Char) (e1 e2 : DiffEntry)
    (h1 : e1 ∈ PerformDiff tNum tDen a b) (h2 : e2 ∈ PerformDiff tNum tDen a b)
    (ht1 : e1.type = DiffType.unchanged ∨ e1.type = DiffType.modified)
    (ht2 : e2.type = DiffType.unchanged ∨ e2.type = DiffType.modified)
    (a1 b1 a2 b2 : ContentBlock)
    (hA1 : e1.blockA = some a1) (hB1 : e1.blockB = some b1)
    (hA2 : e2.blockA = some a2) (hB2 : e2.blockB = some b2)
    (hlt : a1.lineStart < a2.lineStart) :
    b1.lineStart < b2.lineStart := by
  simp only [PerformDiff] at h1 h2
  rw [List.mem_insertionSort] at h1 h2
  have hred : ∀ (e : DiffEntry),
      (e.type = DiffType.unchanged ∨ e.type = DiffType.modified) →
      ∀ (gA gB : List ContentBlock) (pA pB : List Nat) (pairs : List DiffEntry),
      e ∈ lisStage pairs ++ mkDeleted gA pA ++ mkAdded gB pB → e ∈ lisStage pairs := by
    intro e hte gA gB pA pB pairs hmem
    rcases List.mem_append.mp hmem with hm | hm
    · rcases List.mem_append.mp hm with hm2 | hm2
      · exact hm2
      · exfalso
        unfold mkDeleted at hm2
        rcases List.mem_map.mp hm2 with ⟨blk, _, rfl⟩
        rcases hte with h | h <;> simp at h
    · exfalso
      unfold mkAdded at hm
      rcases List.mem_map.mp hm with ⟨blk, _, rfl⟩
      rcases hte with h | h <;> simp at h
  exact lisStage_monotone _ e1 e2 (hred e1 ht1 _ _ _ _ _ h1) (hred e2 ht2 _ _ _ _ _ h2)
    ht1 ht2 a1 b1 a2 b2 hA1 hB1 hA2 hB2 hlt

set_option maxHeartbeats 4000000 in
/-- **C5 witness**: two megablocks retained as Unchanged on a concrete input;
the earlier A block also has the earlier B block. -/
theorem c5_lis_monotonicity_witness :
    (c5e1 ∈ PerformDiff 11 20 ("1\n2\n3\nx\n4\n5\n6".data) ("1\n2\n3\ny\n4\n5\n6".data) ∧
      c5e2 ∈ PerformDiff 11 20 ("1\n2\n3\nx\n4\n5\n6".data) ("1\n2\n3\ny\n4\n5\n6".data) ∧
      c5e1.type = DiffType.unchanged ∧ c5e2.type = DiffType.unchanged ∧
      c5e1.blockA = some (c5e1.blockA.getD default) ∧
      c5e1.blockB = some (c5e1.blockB.getD default) ∧
      c5e2.blockA = some (c5e2.blockA.getD default) ∧
      c5e2.blockB = some (c5e2.blockB.getD default) ∧
      (c5e1.blockA.getD default).lineStart < (c5e2.blockA.getD default).lineStart) ∧
    (c5e1.blockB.getD default).lineStart < (c5e2.blockB.getD default).lineStart :=
  ⟨by decide,
    c5_lis_monotonicity 11 20 ("1\n2\n3\nx\n4\n5\n6".data) ("1\n2\n3\ny\n4\n5\n6".data)
      c5e1 c5e2 (by decide) (by decide) (by decide) (by decide)
      (c5e1.blockA.getD default) (c5e1.blockB.getD default)
      (c5e2.blockA.getD default) (c5e2.blockB.getD default)
      (by decide) (by decide) (by decide) (by decide) (by decide)⟩

theorem pairedDisjoint_symm : ∀ {e1 e2 : DiffEntry}, pairedDisjoint e1 e2 →
    pairedDisjoint e2 e1 := by
  intro e1 e2 h a1 b1 a2 b2 hA1 hB1 hA2 hB2
  have := h a2 b2 a1 b1 hA2 hB2 hA1 hB1
  exact ⟨fun hc => this.1 hc.symm, fun hc => this.2 hc.symm⟩

theorem pairedDisjoint_of_noB (e1 e2 : DiffEntry) (h : e1.blockB = none) :
    pairedDisjoint e1 e2 := by
  intro a1 b1 a2 b2 _ hB1 _ _
  rw [h] at hB1
  exact absurd hB1 (by simp)

theorem pairedDisjoint_of_noA (e1 e2 : DiffEntry) (h : e1.blockA = none) :
    pairedDisjoint e1 e2 := by
  intro a1 b1 a2 b2 hA1 _ _ _
  rw [h] at hA1
  exact absurd hA1 (by simp)

theorem pairwise_noB (l : List DiffEntry) (h : ∀ e ∈ l, e.blockB = none) :
    l.Pairwise pairedDisjoint := by
  induction l with
  | nil => exact List.Pairwise.nil
  | cons x xs ih =>
    refine List.Pairwise.cons ?_ (ih fun e he => h e (List.mem_cons_of_mem x he))
    intro y _
    exact pairedDisjoint_of_noB x y (h x (List.mem_cons_self x xs))

theorem pairwise_enumFrom {R : DiffEntry → DiffEntry → Prop} :
    ∀ (l : List DiffEntry) (n : Nat), l.Pairwise R →
    (l.enumFrom n).Pairwise fun p q => R p.2 q.2 := by
  intro l
  induction l with
  | nil => intro n _; exact List.Pairwise.nil
  | cons x xs ih =>
    intro n hpw
    rw [List.enumFrom_cons]
    obtain ⟨hhead, htail⟩ := List.pairwise_cons.mp hpw
    refine List.Pairwise.cons ?_ (ih (n + 1) htail)
    intro q hq
    obtain ⟨i, y⟩ := q
    obtain ⟨_, h2, h3⟩ := List.mem_enumFrom hq
    rw [h3]
    exact hhead _ (List.getElem_mem _)

theorem segStep_cases (origin : String) (st : List LineInfo × List ContentBlock × Nat)
    (para : List Char) :
    ((segStep origin st para).2.1 = st.2.1 ∧ (segStep origin st para).2.2 = st.2.2) ∨
    (∃ blkNew : ContentBlock, (segStep origin st para).2.1 = st.2.1 ++ [blkNew] ∧
      blkNew.id = st.2.2 ∧ (segStep origin st para).2.2 = st.2.2 + 1) := by
  unfold segStep
  by_cases h1 : trimWS para = []
  · rw [if_pos h1]
    exact Or.inl ⟨rfl, rfl⟩
  · rw [if_neg h1]
    by_cases h2 : (consumePara st.1 [] para).1 = []
    · rw [if_pos h2]
      exact Or.inl ⟨rfl, rfl⟩
    · rw [if_neg h2]
      exact Or.inr ⟨_, rfl, rfl, rfl⟩

theorem segFold_ids (origin : String) :
    ∀ (paras : List (List Char)) (st : List LineInfo × List ContentBlock × Nat) (c0 : Nat),
    (∀ blk ∈ st.2.1, c0 ≤ blk.id ∧ blk.id < st.2.2) → c0 ≤ st.2.2 →
    st.2.1.Pairwise (fun x y => x.id < y.id) →
    ((∀ blk ∈ (paras.foldl (segStep origin) st).2.1,
        c0 ≤ blk.id ∧ blk.id < (paras.foldl (segStep origin) st).2.2) ∧
      st.2.2 ≤ (paras.foldl (segStep origin) st).2.2 ∧
      (paras.foldl (segStep origin) st).2.1.Pairwise fun x y => x.id < y.id) := by
  intro paras
  induction paras with
  | nil =>
    intro st c0 hb hc hpw
    exact ⟨hb, Nat.le_refl _, hpw⟩
  | cons para rest ih =>
    intro st c0 hb hc hpw
    rw [List.foldl_cons]
    rcases segStep_cases origin st para with ⟨h1, h2⟩ | ⟨blkNew, h1, h2, h3⟩
    · obtain ⟨k1, k2, k3⟩ := ih (segStep origin st para) c0
        (by rw [h1, h2]; exact hb) (by rw [h2]; exact hc) (by rw [h1]; exact hpw)
      rw [h2] at k2
      exact ⟨k1, k2, k3⟩
    · obtain ⟨k1, k2, k3⟩ := ih (segStep origin st para) c0
        (by
          rw [h1, h3]
          intro blk hblk
          rcases List.mem_append.mp hblk with hm | hm
          · have := hb blk hm
            omega
          · rw [List.mem_singleton] at hm
            subst hm
            omega)
        (by rw [h3]; omega)
        (by
          rw [h1, List.pairwise_append]
          refine ⟨hpw, List.pairwise_singleton _ _, ?_⟩
          intro x hx y hy
          rw [List.mem_singleton] at hy
          subst hy
          have := hb x hx
          omega)
      rw [h3] at k2
      exact ⟨k1, by omega, k3⟩

theorem SegmentGapText_ids (gapLines : List LineInfo) (fileOrigin : String) (c0 : Nat) :
    (∀ blk ∈ (SegmentGapText gapLines fileOrigin c0).1,
        c0 ≤ blk.id ∧ blk.id < (SegmentGapText gapLines fileOrigin c0).2) ∧
    c0 ≤ (SegmentGapText gapLines fileOrigin c0).2 ∧
    (SegmentGapText gapLines fileOrigin c0).1.Pairwise fun x y => x.id < y.id := by
  unfold SegmentGapText
  by_cases hempty : gapLines = []
  · rw [if_pos hempty]
    exact ⟨fun blk hb => absurd hb (List.not_mem_nil blk), Nat.le_refl _, List.Pairwise.nil⟩
  · rw [if_neg hempty]
    exact segFold_ids fileOrigin _ (gapLines, [], c0) c0
      (fun blk hb => absurd hb (List.not_mem_nil blk)) (Nat.le_refl _) List.Pairwise.nil

theorem gapStep_cases (origin : String) (st : List LineInfo × List ContentBlock × Nat)
    (li : LineInfo) :
    ((gapStep origin st li).2.1 = st.2.1 ∧ (gapStep origin st li).2.2 = st.2.2) ∨
    ((gapStep origin st li).2.1 = st.2.1 ++ (SegmentGapText st.1 origin st.2.2).1 ∧
      (gapStep origin st li).2.2 = (SegmentGapText st.1 origin st.2.2).2) := by
  unfold gapStep
  by_cases h1 : li.isPartOfMega = false
  · rw [if_pos h1]
    exact Or.inl ⟨rfl, rfl⟩
  · rw [if_neg h1]
    by_cases h2 : st.1 = []
    · rw [if_pos h2]
      exact Or.inl ⟨rfl, rfl⟩
    · rw [if_neg h2]
      exact Or.inr ⟨rfl, rfl⟩

theorem gapFold_ids (origin : String) :
    ∀ (lines : List LineInfo) (st : List LineInfo × List ContentBlock × Nat) (c0 : Nat),
    (∀ blk ∈ st.2.1, c0 ≤ blk.id ∧ blk.id < st.2.2) → c0 ≤ st.2.2 →
    st.2.1.Pairwise (fun x y => x.id < y.id) →
    ((∀ blk ∈ (lines.foldl (gapStep origin) st).2.1,
        c0 ≤ blk.id ∧ blk.id < (lines.foldl (gapStep origin) st).2.2) ∧
      st.2.2 ≤ (lines.foldl (gapStep origin) st).2.2 ∧
      (lines.foldl (gapStep origin) st).2.1.Pairwise fun x y => x.id < y.id) := by
  intro lines
  induction lines with
  | nil =>
    intro st c0 hb hc hpw
    exact ⟨hb, Nat.le_refl _, hpw⟩
  | cons li rest ih =>
    intro st c0 hb hc hpw
    rw [List.foldl_cons]
    rcases gapStep_cases origin st li with ⟨h1, h2⟩ | ⟨h1, h2⟩
    · obtain ⟨k1, k2, k3⟩ := ih (gapStep origin st li) c0
        (by rw [h1, h2]; exact hb) (by rw [h2]; exact hc) (by rw [h1]; exact hpw)
      rw [h2] at k2
      exact ⟨k1, k2, k3⟩
    · obtain ⟨s1, s2, s3⟩ := SegmentGapText_ids st.1 origin st.2.2
      obtain ⟨k1, k2, k3⟩ := ih (gapStep origin st li) c0
        (by
          rw [h1, h2]
          intro blk hblk
          rcases List.mem_append.mp hblk with hm | hm
          · have h4 := hb blk hm
            omega
          · have h4 := s1 blk hm
            omega)
        (by rw [h2]; omega)
        (by
          rw [h1, List.pairwise_append]
          refine ⟨hpw, s3, ?_⟩
          intro x hx y hy
          have h4 := hb x hx
          have h5 := s1 y hy
          omega)
      rw [h2] at k2
      exact ⟨k1, by omega, k3⟩

theorem collectGaps_ids (lines : List LineInfo) (origin : String) (ctr : Nat) :
    (∀ blk ∈ (collectGaps lines origin ctr).1,
        ctr ≤ blk.id ∧ blk.id < (collectGaps lines origin ctr).2) ∧
    ctr ≤ (collectGaps lines origin ctr).2 ∧
    (collectGaps lines origin ctr).1.Pairwise fun x y => x.id < y.id := by
  unfold collectGaps
  obtain ⟨k1, k2, k3⟩ := gapFold_ids origin lines ([], [], ctr) ctr
    (fun blk hb => absurd hb (List.not_mem_nil blk)) (Nat.le_refl _) List.Pairwise.nil
  have k2r : ctr ≤ (lines.foldl (gapStep origin) ([], [], ctr)).2.2 := k2
  by_cases h1 : (lines.foldl (gapStep origin) ([], [], ctr)).1 = []
  · rw [if_pos h1]
    exact ⟨k1, k2, k3⟩
  · rw [if_neg h1]
    obtain ⟨s1, s2, s3⟩ := SegmentGapText_ids (lines.foldl (gapStep origin) ([], [], ctr)).1
      origin (lines.foldl (gapStep origin) ([], [], ctr)).2.2
    simp only []
    refine ⟨?_, by omega, ?_⟩
    · intro blk hblk
      rcases List.mem_append.mp hblk with hm | hm
      · have h4 := k1 blk hm
        omega
      · have h4 := s1 blk hm
        omega
    · rw [List.pairwise_append]
      refine ⟨k3, s3, ?_⟩
      intro x hx y hy
      have h4 := k1 x hx
      have h5 := s1 y hy
      omega

theorem mkMegaBlock_id (lines : List LineInfo) (start len ident : Nat) (origin : String) :
    (mkMegaBlock lines start len ident origin).id = ident := rfl

theorem megaLoop_pairwise_ids :
    ∀ (f : Nat) (A B : List LineInfo) (m : List DiffEntry) (c : Nat),
    (∀ e ∈ m, ∃ p : ContentBlock × ContentBlock, e.blockA = some p.1 ∧
      e.blockB = some p.2 ∧ p.1.id < p.2.id ∧ p.2.id < c) →
    m.Pairwise pairedDisjoint →
    ((∀ e ∈ (megaLoop f A B m c).2.2.1, ∃ p : ContentBlock × ContentBlock,
        e.blockA = some p.1 ∧ e.blockB = some p.2 ∧ p.1.id < p.2.id ∧
        p.2.id < (megaLoop f A B m c).2.2.2) ∧
      c ≤ (megaLoop f A B m c).2.2.2 ∧
      (megaLoop f A B m c).2.2.1.Pairwise pairedDisjoint) := by
  intro f
  induction f with
  | zero =>
    intro A B m c hm hpw
    exact ⟨hm, Nat.le_refl _, hpw⟩
  | succ f ih =>
    intro A B m c hm hpw
    cases hh : findNextGreedyMegaMatch A B with
    | none =>
      rw [megaLoop_none f A B m c hh]
      exact ⟨hm, Nat.le_refl _, hpw⟩
    | some v =>
      obtain ⟨aS, bS, len⟩ := v
      rw [megaLoop_some f A B m c aS bS len hh]
      obtain ⟨k1, k2, k3⟩ := ih (markConsumed A aS len) (markConsumed B bS len)
        (m ++ [{ type := .unchanged, blockA := some (mkMegaBlock A aS len c "A"),
                 blockB := some (mkMegaBlock B bS len (c + 1) "B"), similarity := (0, 1) }])
        (c + 2)
        (by
          intro e he
          rcases List.mem_append.mp he with hm2 | hm2
          · obtain ⟨p, hp1, hp2, hp3, hp4⟩ := hm e hm2
            exact ⟨p, hp1, hp2, hp3, by omega⟩
          · rw [List.mem_singleton] at hm2
            subst hm2
            exact ⟨(mkMegaBlock A aS len c "A", mkMegaBlock B bS len (c + 1) "B"),
              rfl, rfl, Nat.lt_succ_self c, Nat.lt_succ_self (c + 1)⟩)
        (by
          rw [List.pairwise_append]
          refine ⟨hpw, List.pairwise_singleton _ _, ?_⟩
          intro e1 he1 e2 he2
          rw [List.mem_singleton] at he2
          subst he2
          obtain ⟨p, hp1, hp2, hp3, hp4⟩ := hm e1 he1
          intro a1 b1 a2 b2 hA1 hB1 hA2 hB2
          rw [hp1] at hA1
          rw [hp2] at hB1
          injection hA1 with hA1
          injection hB1 with hB1
          simp only [Option.some.injEq] at hA2 hB2
          subst hA1
          subst hB1
          rw [← hA2, ← hB2, mkMegaBlock_id, mkMegaBlock_id]
          exact ⟨by omega, by omega⟩)
      exact ⟨k1, by omega, k3⟩

theorem bestFold_mem (aNorm : List Char) (pB : List Nat) (gB : List ContentBlock) :
    ∀ (l : List ContentBlock) (st : Option (ContentBlock × (Nat × Nat))),
    (∀ x ∈ l, x ∈ gB) →
    (∀ bb hi, st = some (bb, hi) → bb ∈ gB ∧ bb.id ∉ pB) →
    ∀ bb hi, l.foldl (bestStep aNorm pB) st = some (bb, hi) → bb ∈ gB ∧ bb.id ∉ pB := by
  intro l
  induction l with
  | nil => intro st _ h bb hi hf; exact h bb hi hf
  | cons b rest ih =>
    intro st hmem h bb hi hf
    rw [List.foldl_cons] at hf
    refine ih _ (fun x hx => hmem x (List.mem_cons_of_mem b hx)) ?_ bb hi hf
    intro bb2 hi2 hs
    unfold bestStep at hs
    by_cases h1 : b.id ∈ pB
    · rw [if_pos h1] at hs; exact h bb2 hi2 hs
    · rw [if_neg h1] at hs
      by_cases h2 : numLines b.originalText < MinParagraphLinesForSemanticMatch
      · rw [if_pos h2] at hs; exact h bb2 hi2 hs
      · rw [if_neg h2] at hs
        cases hst : st with
        | none =>
          rw [hst] at hs
          simp only [Option.some.injEq, Prod.mk.injEq] at hs
          rw [← hs.1]
          exact ⟨hmem b (List.mem_cons_self b rest), h1⟩
        | some v =>
          obtain ⟨bb3, hi3⟩ := v
          rw [hst] at hs
          simp only [] at hs
          by_cases h3 : hi3.1 * (TextSimilarityNormalized aNorm b.normalizedText).2 <
              (TextSimilarityNormalized aNorm b.normalizedText).1 * hi3.2
          · rw [if_pos h3] at hs
            simp only [Option.some.injEq, Prod.mk.injEq] at hs
            rw [← hs.1]
            exact ⟨hmem b (List.mem_cons_self b rest), h1⟩
          · rw [if_neg h3] at hs
            simp only [Option.some.injEq, Prod.mk.injEq] at hs
            refine hs.1 ▸ h bb3 hi3 ?_
            rw [hst]

theorem semFold_ids (tNum tDen : Nat) (A0 gB : List ContentBlock) :
    ∀ (l : List ContentBlock) (st : List Nat × List Nat × List DiffEntry),
    l.Pairwise (fun x y => x.id ≠ y.id) →
    (∀ x ∈ l, x ∈ A0) →
    (∀ e ∈ st.2.2, ∃ p : ContentBlock × ContentBlock, e.blockA = some p.1 ∧
      e.blockB = some p.2 ∧ p.1 ∈ A0 ∧ p.2 ∈ gB ∧ p.2.id ∈ st.2.1 ∧
      ∀ x ∈ l, p.1.id ≠ x.id) →
    st.2.2.Pairwise pairedDisjoint →
    ((∀ e ∈ (l.foldl (semStep tNum tDen gB) st).2.2, ∃ p : ContentBlock × ContentBlock,
        e.blockA = some p.1 ∧ e.blockB = some p.2 ∧ p.1 ∈ A0 ∧ p.2 ∈ gB) ∧
      (l.foldl (semStep tNum tDen gB) st).2.2.Pairwise pairedDisjoint) := by
  intro l
  induction l with
  | nil =>
    intro st _ _ hinv hpw
    refine ⟨?_, hpw⟩
    intro e he
    obtain ⟨p, h1, h2, h3, h4, _, _⟩ := hinv e he
    exact ⟨p, h1, h2, h3, h4⟩
  | cons a rest ih =>
    intro st hdist hA0 hinv hpw
    rw [List.foldl_cons]
    obtain ⟨hdh, hdt⟩ := List.pairwise_cons.mp hdist
    by_cases h1 : numLines a.originalText < MinParagraphLinesForSemanticMatch
    · have hs : semStep tNum tDen gB st a = st := by
        unfold semStep
        rw [if_pos h1]
      rw [hs]
      refine ih st hdt (fun x hx => hA0 x (List.mem_cons_of_mem a hx)) ?_ hpw
      intro e he
      obtain ⟨p, k1, k2, k3, k4, k5, k6⟩ := hinv e he
      exact ⟨p, k1, k2, k3, k4, k5, fun x hx => k6 x (List.mem_cons_of_mem a hx)⟩
    · cases hf : gB.foldl (bestStep a.normalizedText st.2.1) none with
      | none =>
        have hs : semStep tNum tDen gB st a = st := by
          unfold semStep
          rw [if_neg h1, hf]
        rw [hs]
        refine ih st hdt (fun x hx => hA0 x (List.mem_cons_of_mem a hx)) ?_ hpw
        intro e he
        obtain ⟨p, k1, k2, k3, k4, k5, k6⟩ := hinv e he
        exact ⟨p, k1, k2, k3, k4, k5, fun x hx => k6 x (List.mem_cons_of_mem a hx)⟩
      | some v =>
        obtain ⟨b, hi⟩ := v
        have hbmem := bestFold_mem a.normalizedText st.2.1 gB gB none
          (fun x hx => hx) (by intro bb hi2 hc; exact absurd hc (by simp)) b hi hf
        by_cases h2 : tNum * hi.2 ≤ hi.1 * tDen
        · have hs : semStep tNum tDen gB st a = (st.1 ++ [a.id], st.2.1 ++ [b.id], st.2.2 ++
              [{ type := .modified, blockA := some a, blockB := some b,
                 similarity := hi }]) := by
            unfold semStep
            rw [if_neg h1, hf]
            simp only []
            rw [if_pos h2]
          rw [hs]
          refine ih _ hdt (fun x hx => hA0 x (List.mem_cons_of_mem a hx)) ?_ ?_
          · intro e he
            simp only [] at he
            rcases List.mem_append.mp he with hm | hm
            · obtain ⟨p, k1, k2, k3, k4, k5, k6⟩ := hinv e hm
              exact ⟨p, k1, k2, k3, k4, List.mem_append_left _ k5,
                fun x hx => k6 x (List.mem_cons_of_mem a hx)⟩
            · rw [List.mem_singleton] at hm
              subst hm
              refine ⟨(a, b), rfl, rfl, hA0 a (List.mem_cons_self a rest), hbmem.1,
                List.mem_append_right _ (List.mem_singleton_self _), ?_⟩
              intro x hx
              exact hdh x hx
          · simp only []
            rw [List.pairwise_append]
            refine ⟨hpw, List.pairwise_singleton _ _, ?_⟩
            intro e1 he1 e2 he2
            rw [List.mem_singleton] at he2
            subst he2
            obtain ⟨p, k1, k2, _, _, k5, k6⟩ := hinv e1 he1
            intro a1 b1 a2 b2 hA1 hB1 hA2 hB2
            rw [k1] at hA1
            rw [k2] at hB1
            injection hA1 with hA1
            injection hB1 with hB1
            simp only [Option.some.injEq] at hA2 hB2
            subst hA1
            subst hB1
            rw [← hA2, ← hB2]
            constructor
            · exact k6 a (List.mem_cons_self a rest)
            · intro hc
              rw [hc] at k5
              exact hbmem.2 k5
        · have hs : semStep tNum tDen gB st a = st := by
            unfold semStep
            rw [if_neg h1, hf]
            simp only []
            rw [if_neg h2]
          rw [hs]
          refine ih st hdt (fun x hx => hA0 x (List.mem_cons_of_mem a hx)) ?_ hpw
          intro e he
          obtain ⟨p, k1, k2, k3, k4, k5, k6⟩ := hinv e he
          exact ⟨p, k1, k2, k3, k4, k5, fun x hx => k6 x (List.mem_cons_of_mem a hx)⟩

theorem semStage_ids (tNum tDen : Nat) (gA gB : List ContentBlock)
    (h : gA.Pairwise fun x y => x.id ≠ y.id) :
    (∀ e ∈ (semStage tNum tDen gA gB).2.2, ∃ p : ContentBlock × ContentBlock,
        e.blockA = some p.1 ∧ e.blockB = some p.2 ∧ p.1 ∈ gA ∧ p.2 ∈ gB) ∧
    (semStage tNum tDen gA gB).2.2.Pairwise pairedDisjoint := by
  unfold semStage
  have hp : (List.insertionSort leID gA).Pairwise fun x y => x.id ≠ y.id :=
    (List.Perm.pairwise_iff (fun hxy he => hxy he.symm)
      (List.perm_insertionSort leID gA)).mpr h
  exact semFold_ids tNum tDen gA gB (List.insertionSort leID gA) ([], [], []) hp
    (fun x hx => (List.mem_insertionSort leID).mp hx)
    (by intro e he; exact absurd he (List.not_mem_nil e)) List.Pairwise.nil

theorem lisStage_pairwise (pairs : List DiffEntry) (h : pairs.Pairwise pairedDisjoint) :
    (lisStage pairs).Pairwise pairedDisjoint := by
  unfold lisStage
  have h1 : (List.insertionSort leA pairs).Pairwise pairedDisjoint :=
    (List.Perm.pairwise_iff (fun hab => pairedDisjoint_symm hab)
      (List.perm_insertionSort leA pairs)).mpr h
  have h2 : ((List.insertionSort leA pairs).enumFrom 0).Pairwise
      (fun p q => pairedDisjoint p.2 q.2) := pairwise_enumFrom _ 0 h1
  refine List.Pairwise.map _ ?_ h2
  intro p q hpq
  simp only []
  by_cases hc1 : p.1 ∈ findLISIndices (List.insertionSort leA pairs) <;>
    by_cases hc2 : q.1 ∈ findLISIndices (List.insertionSort leA pairs) <;>
    first
      | rw [if_pos hc1, if_pos hc2]
      | rw [if_pos hc1, if_neg hc2]
      | rw [if_neg hc1, if_pos hc2]
      | rw [if_neg hc1, if_neg hc2]
  all_goals
    intro a1 b1 a2 b2 hA1 hB1 hA2 hB2
  all_goals
    exact hpq a1 b1 a2 b2 hA1 hB1 hA2 hB2

theorem mkDeleted_noB (gA : List ContentBlock) (pA : List Nat) :
    ∀ e ∈ mkDeleted gA pA, e.blockB = none := by
  intro e he
  unfold mkDeleted at he
  rcases List.mem_map.mp he with ⟨blk, _, rfl⟩
  rfl

theorem mkAdded_noA (gB : List ContentBlock) (pB : List Nat) :
    ∀ e ∈ mkAdded gB pB, e.blockA = none := by
  intro e he
  unfold mkAdded at he
  rcases List.mem_map.mp he with ⟨blk, _, rfl⟩
  rfl

theorem pairwise_noA (l : List DiffEntry) (h : ∀ e ∈ l, e.blockA = none) :
    l.Pairwise pairedDisjoint := by
  induction l with
  | nil => exact List.Pairwise.nil
  | cons x xs ih =>
    refine List.Pairwise.cons ?_ (ih fun e he => h e (List.mem_cons_of_mem x he))
    intro y _
    exact pairedDisjoint_of_noA x y (h x (List.mem_cons_self x xs))

/-- **C8.** For every pair of input strings, in the entry sequence returned by
`PerformDiff` no content block, identified by its ID, occurs in more than one
paired entry (an entry carrying both an A block and a B block): any two output
entries that are both paired use four distinct block IDs on each side. -/
theorem c8_pairing_unique (tNum tDen : Nat) (a b : List Char) :
    (PerformDiff tNum tDen a b).Pairwise pairedDisjoint := by
  simp only [PerformDiff]
  refine (List.Perm.pairwise_iff (fun h => pairedDisjoint_symm h)
    (List.perm_insertionSort le7 _)).mpr ?_
  set LA := getLinesWithInfo a "A" with hLA
  set LB := getLinesWithInfo b "B" with hLB
  set M := megaLoop (LA.length + 1) LA LB [] 0 with hM
  set GA := collectGaps M.1 "A" M.2.2.2 with hGA
  set GB := collectGaps M.2.1 "B" GA.2 with hGB
  set S := semStage tNum tDen GA.1 GB.1 with hS
  obtain ⟨m1, m2, m3⟩ := megaLoop_pairwise_ids (LA.length + 1) LA LB [] 0
    (fun e he => absurd he (List.not_mem_nil e)) List.Pairwise.nil
  rw [← hM] at m1 m3
  obtain ⟨g1A, g2A, g3A⟩ := collectGaps_ids M.1 "A" M.2.2.2
  rw [← hGA] at g1A g2A g3A
  obtain ⟨g1B, g2B, g3B⟩ := collectGaps_ids M.2.1 "B" GA.2
  rw [← hGB] at g1B g2B g3B
  obtain ⟨s1, s2⟩ := semStage_ids tNum tDen GA.1 GB.1
    (List.Pairwise.imp (fun hlt => Nat.ne_of_lt hlt) g3A)
  rw [← hS] at s1 s2
  rw [List.pairwise_append]
  refine ⟨?_, pairwise_noA _ (mkAdded_noA GB.1 S.2.1), ?_⟩
  · rw [List.pairwise_append]
    refine ⟨?_, pairwise_noB _ (mkDeleted_noB GA.1 S.1), ?_⟩
    · refine lisStage_pairwise _ ?_
      rw [List.pairwise_append]
      refine ⟨m3, s2, ?_⟩
      intro e1 he1 e2 he2
      obtain ⟨p, hp1, hp2, hp3, hp4⟩ := m1 e1 he1
      obtain ⟨q, hq1, hq2, hq3, hq4⟩ := s1 e2 he2
      have hqa := g1A q.1 hq3
      have hqb := g1B q.2 hq4
      intro a1 b1 a2 b2 hA1 hB1 hA2 hB2
      rw [hp1] at hA1
      rw [hp2] at hB1
      rw [hq1] at hA2
      rw [hq2] at hB2
      injection hA1 with hA1
      injection hB1 with hB1
      injection hA2 with hA2
      injection hB2 with hB2
      subst hA1
      subst hB1
      subst hA2
      subst hB2
      constructor <;> intro hc <;> omega
    · intro e1 he1 e2 he2
      exact pairedDisjoint_symm (pairedDisjoint_of_noB e2 e1 (mkDeleted_noB GA.1 S.1 e2 he2))
  · intro e1 he1 e2 he2
    exact pairedDisjoint_symm (pairedDisjoint_of_noA e2 e1 (mkAdded_noA GB.1 S.2.1 e2 he2))

end GoSemDiff
